import Mathlib

/-!
# bars-to-bwav: marker scan, name recovery and segment splitting

A shallow embedding of the per-file body of `main` in `bars-to-bwav.cpp`
(lines 112-193): the scan of the loaded bytes for `BWAV` and `AMTA` tags, the
backward recovery of a name in front of the next tag, the renaming of repeated
names, the `extra_` padding and the computation of the slices that are written
out. Creating directories and the retry under an `illegal_name_` path are
file-system work and are not embedded; a segment stands for one `write` of
`writeSize` bytes from `offset` under the name `audioNames[i]`. The choice of a
path that does not exist yet (lines 193-205) is embedded on its own, with
`filesystem::exists` as a parameter.

Conventions of the embedding.

* `fBuf` (`vector<char>`) is a `List Nat` of byte values; `barsSize` is its
  length. A `std::string` is the list of its byte values. The tests of the
  source compare with values below `0x80` and with `'\0'`, so the signedness of
  `char` plays no role.
* `streamoff` / `streamsize` are signed 64-bit, so `i < barsSize - 4` never
  wraps; it is written `i + 4 < barsSize` on naturals. `writeSize` is an `Int`.
* `std::to_string` is the decimal rendering `Nat.toDigits 10`, as bytes.
* Behaviour that C++ leaves undefined is an explicit error result:
  reading `fBuf[k]` outside the vector, using `nameStart` while it was never
  assigned, and `audioNames[i]` beyond the end of the vector.
* Loops whose trip count is not fixed in advance carry a fuel argument; running
  out of fuel is the error `outOfFuel`, and the theorems show that the fuel
  handed over by the callers is always enough.
-/

namespace BarsToBwav

/-- The bytes of the file being processed (`fBuf`). -/
abbrev Buffer := List Nat

/-- A `std::string`, as the list of its bytes. -/
abbrev Name := List Nat

/-- Outcomes that are not a normal result of the program. -/
inductive ScanError where
  /-- `fBuf[k]` was read with `k` outside `0 .. barsSize - 1`. -/
  | readOutOfBounds
  /-- `nameStart` was used although no assignment to it was executed. -/
  | uninitNameStart
  /-- `audioNames[i]` was read with `i >= audioNames.size()`. -/
  | nameIndex
  /-- `startOffsets[i]` was read with `i >= startOffsets.size()`. -/
  | offsetIndex
  /-- The fuel of a loop of the embedding ran out. -/
  | outOfFuel
  deriving DecidableEq, Repr

/-- One file that is written: `audioNames[i]`, `offset` and `writeSize`. -/
structure Segment where
  name : Name
  start : Nat
  length : Int
  deriving DecidableEq, Repr

/-- The test of line 117: `fBuf[i..i+3]` is `0x42 0x57 0x41 0x56`. -/
def isBWAV (fBuf : Buffer) (i : Nat) : Bool :=
  fBuf[i]? == some 0x42 && fBuf[i+1]? == some 0x57 &&
    fBuf[i+2]? == some 0x41 && fBuf[i+3]? == some 0x56

/-- The test of line 128: `fBuf[i..i+3]` is `0x41 0x4D 0x54 0x41`. -/
def isAMTA (fBuf : Buffer) (i : Nat) : Bool :=
  fBuf[i]? == some 0x41 && fBuf[i+1]? == some 0x4D &&
    fBuf[i+2]? == some 0x54 && fBuf[i+3]? == some 0x41

/-- The test of lines 136-137: an `AMTA` or a `BWAV` tag at `j`. -/
def isTag (fBuf : Buffer) (j : Nat) : Bool :=
  isAMTA fBuf j || isBWAV fBuf j

/-- The backward loop of lines 141-149. The first argument is `k + 1`, so that
`0` stands for `k = -1`, where the loop condition reads `fBuf[-1]`. The result
is the final `(nameStart, nameLen)`. -/
def backScan (fBuf : Buffer) :
    Nat → Bool → Option Nat → Nat → Except ScanError (Option Nat × Nat)
  | 0, _, _, _ => .error .readOutOfBounds
  | k + 1, foundName, nameStart, nameLen =>
    match fBuf[k]? with
    | none => .error .readOutOfBounds
    | some c =>
      if c ≠ 0 ∨ foundName = false then
        if c ≠ 0 then backScan fBuf k true (some k) (nameLen + 1)
        else backScan fBuf k foundName nameStart nameLen
      else .ok (nameStart, nameLen)

/-- The forward loop of lines 134-152, entered with `j = i + 4`: at the first
tag the backward loop runs from `k = j - 1` and the loop is left; when the loop
ends without a tag, `nameStart` is unassigned and `nameLen` is `0`. -/
def nameScan (fBuf : Buffer) : Nat → Nat → Except ScanError (Option Nat × Nat)
  | 0, _ => .error .outOfFuel
  | fuel + 1, j =>
    if j + 4 < fBuf.length then
      if isTag fBuf j then backScan fBuf j false none 0
      else nameScan fBuf fuel (j + 4)
    else .ok (none, 0)

/-- Lines 131-153: the raw name of the `AMTA` tag at `i`,
`string(fBuf.begin() + nameStart, fBuf.begin() + nameStart + nameLen)`. -/
def recoverName (fBuf : Buffer) (i : Nat) : Except ScanError Name :=
  match nameScan fBuf (fBuf.length + 1) (i + 4) with
  | .error e => .error e
  | .ok (none, _) => .error .uninitNameStart
  | .ok (some nameStart, nameLen) => .ok ((fBuf.drop nameStart).take nameLen)

/-- The bytes of `std::to_string(n)`: the decimal digits of `n` in ASCII. -/
def to_string (n : Nat) : Name :=
  (Nat.toDigits 10 n).map Char.toNat

/-- The string `name + '-' + to_string(repeatCounter)` of lines 157 and 160. -/
def suffixed (name : Name) (repeatCounter : Nat) : Name :=
  name ++ [45] ++ to_string repeatCounter

/-- The loop of lines 157-159: the final value of `repeatCounter`, which is at most
`audioNames.size() + 1` (an `int` in the source, a natural number here). -/
def probe (audioNames : List Name) (name : Name) : Nat → Nat → Except ScanError Nat
  | 0, _ => .error .outOfFuel
  | fuel + 1, repeatCounter =>
    if suffixed name repeatCounter ∈ audioNames then
      probe audioNames name fuel (repeatCounter + 1)
    else .ok repeatCounter

/-- Lines 154-161: the name that is pushed for the raw name `name`. -/
def acceptName (audioNames : List Name) (name : Name) : Except ScanError Name :=
  if name ∈ audioNames then
    match probe audioNames name (audioNames.length + 1) 1 with
    | .error e => .error e
    | .ok repeatCounter => .ok (suffixed name repeatCounter)
  else .ok name

/-- Lines 154-162: `audioNames` after the raw name `name` was handled, the name
that was chosen for it being pushed at the back. -/
def pushName (audioNames : List Name) (name : Name) : Except ScanError (List Name) :=
  match acceptName audioNames name with
  | .error e => .error e
  | .ok name => .ok (audioNames ++ [name])

/-- The body of the loop of lines 115-165 at offset `i`, on the pair
`(audioNames, startOffsets)`. -/
def scanBody (fBuf : Buffer) (i : Nat) (st : List Name × List Nat) :
    Except ScanError (List Name × List Nat) :=
  let startOffsets := if isBWAV fBuf i then st.2 ++ [i] else st.2
  if isAMTA fBuf i then
    match recoverName fBuf i with
    | .error e => .error e
    | .ok name =>
      match pushName st.1 name with
      | .error e => .error e
      | .ok audioNames => .ok (audioNames, startOffsets)
  else .ok (st.1, startOffsets)

/-- The loop of lines 115-165 from offset `i` on. -/
def scanLoop (fBuf : Buffer) :
    Nat → Nat → List Name × List Nat → Except ScanError (List Name × List Nat)
  | 0, _, _ => .error .outOfFuel
  | fuel + 1, i, st =>
    if i + 4 < fBuf.length then
      match scanBody fBuf i st with
      | .error e => .error e
      | .ok st => scanLoop fBuf fuel (i + 4) st
    else .ok st

/-- Lines 112-165: `(audioNames, startOffsets)` after the scan. -/
def scan (fBuf : Buffer) : Except ScanError (List Name × List Nat) :=
  scanLoop fBuf (fBuf.length + 1) 0 ([], [])

/-- The bytes of the literal `"extra_"`. -/
def extraPrefix : Name := [101, 120, 116, 114, 97, 95]

/-- The loop of lines 173-175 for `startOffsets.size() = count`; its bound
`startOffsets.size() - audioNames.size() + 1` is evaluated before every
iteration, on the current `audioNames`. The loop is entered with
`audioNames.size() < count` and pushes only while `i + audioNames.size() <= count`,
so the unsigned difference never wraps. -/
def padLoop (count : Nat) : Nat → Nat → List Name → Except ScanError (List Name)
  | 0, _, _ => .error .outOfFuel
  | fuel + 1, i, audioNames =>
    if i < count - audioNames.length + 1 then
      padLoop count fuel (i + 1) (audioNames ++ [extraPrefix ++ to_string i])
    else .ok audioNames

/-- Lines 171-176: `audioNames` after the padding with `extra_` names. -/
def padNames (audioNames : List Name) (count : Nat) : Except ScanError (List Name) :=
  if audioNames.length < count then padLoop count (count + 1) 1 audioNames
  else .ok audioNames

/-- Lines 185-192: `(offset, writeSize)` of iteration `i`. -/
def segmentRange (startOffsets : List Nat) (barsSize : Nat) (i : Nat) :
    Except ScanError (Nat × Int) :=
  match startOffsets[i]? with
  | none => .error .offsetIndex
  | some offset =>
    if i + 1 = startOffsets.length then .ok (offset, (barsSize : Int) - offset)
    else
      match startOffsets[i+1]? with
      | none => .error .offsetIndex
      | some nextOffset => .ok (offset, (nextOffset : Int) - offset)

/-- Lines 185-193: the slice and the name of iteration `i`. -/
def segmentAt (audioNames : List Name) (startOffsets : List Nat) (barsSize : Nat)
    (i : Nat) : Except ScanError Segment :=
  match segmentRange startOffsets barsSize i with
  | .error e => .error e
  | .ok (offset, writeSize) =>
    match audioNames[i]? with
    | none => .error .nameIndex
    | some name => .ok ⟨name, offset, writeSize⟩

/-- The loop of lines 184-222 with `n` iterations left, starting at index `i`:
the segments in the order in which they are written. -/
def writeLoop (audioNames : List Name) (startOffsets : List Nat) (barsSize : Nat) :
    Nat → Nat → Except ScanError (List Segment)
  | 0, _ => .ok []
  | n + 1, i =>
    match segmentAt audioNames startOffsets barsSize i with
    | .error e => .error e
    | .ok seg =>
      match writeLoop audioNames startOffsets barsSize n (i + 1) with
      | .error e => .error e
      | .ok rest => .ok (seg :: rest)

/-- Lines 112-222 for one loaded file: the segments that are written. -/
def processBuffer (fBuf : Buffer) : Except ScanError (List Segment) :=
  match scan fBuf with
  | .error e => .error e
  | .ok (audioNames, startOffsets) =>
    match padNames audioNames startOffsets.length with
    | .error e => .error e
    | .ok audioNames =>
      writeLoop audioNames startOffsets fBuf.length startOffsets.length 0

/-- The loop of lines 184-222 as far as it gets, with `n` iterations left, starting at
index `i`: the segments written before the loop ends or before the first read outside
`startOffsets` or `audioNames`, and that error when there is one. -/
def writeLoopWritten (audioNames : List Name) (startOffsets : List Nat) (barsSize : Nat) :
    Nat → Nat → List Segment × Option ScanError
  | 0, _ => ([], none)
  | n + 1, i =>
    match segmentAt audioNames startOffsets barsSize i with
    | .error e => ([], some e)
    | .ok seg =>
      let rest := writeLoopWritten audioNames startOffsets barsSize n (i + 1)
      (seg :: rest.1, rest.2)

/-- Lines 112-222 for one loaded file, as far as the run gets: the segments written
before it ends or before the error that stops it, and that error when there is one. -/
def writtenSegments (fBuf : Buffer) : List Segment × Option ScanError :=
  match scan fBuf with
  | .error e => ([], some e)
  | .ok (audioNames, startOffsets) =>
    match padNames audioNames startOffsets.length with
    | .error e => ([], some e)
    | .ok audioNames =>
      writeLoopWritten audioNames startOffsets fBuf.length startOffsets.length 0

/-- The bytes of the literal `".bwav"`. -/
def bwavExt : Name := [46, 98, 119, 97, 118]

/-- The loop of lines 201-203: the final value of `repeatCounter`. `fileExists` stands
for `filesystem::exists` on the state of the file system, which the loop does not
change. The loop of the source goes on for as long as the probed paths exist. -/
def pathProbe (fileExists : Name → Bool) (newOFilePath : Name) :
    Nat → Nat → Except ScanError Nat
  | 0, _ => .error .outOfFuel
  | fuel + 1, repeatCounter =>
    if fileExists (newOFilePath ++ to_string repeatCounter ++ bwavExt) = true then
      pathProbe fileExists newOFilePath fuel (repeatCounter + 1)
    else .ok repeatCounter

/-- Lines 193-205: the path under which the segment named `name` is written, for the
value `overwrite` of `OVERWRITE`; `dir` is `baseOutputDir + outputDir`. -/
def outputPath (overwrite : Bool) (fileExists : Name → Bool) (dir name : Name)
    (fuel : Nat) : Except ScanError Name :=
  let fName := name ++ bwavExt
  let oFilePath := dir ++ fName
  if overwrite = false ∧ fileExists oFilePath = true then
    let newOFilePath := oFilePath.take (oFilePath.length - 5) ++ [45]
    match pathProbe fileExists newOFilePath fuel 1 with
    | .error e => .error e
    | .ok repeatCounter => .ok (newOFilePath ++ to_string repeatCounter ++ bwavExt)
  else .ok oFilePath

/-! ### Definitions used to state the properties -/

set_option maxRecDepth 100000

deriving instance DecidableEq for Except

/-- The bytes of a string literal. -/
def bytesOf (s : String) : Name := s.toList.map Char.toNat

/-- The offsets at which the loop of line 115 runs its body: the multiples of
`4` below `barsSize - 4`, in ascending order. -/
def scanOffsets (barsSize : Nat) : List Nat :=
  (List.range barsSize).filter (fun i => i % 4 = 0 ∧ i + 4 < barsSize)

/-- The body of the loop of lines 115-165, run at the offsets of a list. -/
def scanList (fBuf : Buffer) :
    List Nat → List Name × List Nat → Except ScanError (List Name × List Nat)
  | [], st => .ok st
  | i :: rest, st =>
    match scanBody fBuf i st with
    | .error e => .error e
    | .ok st => scanList fBuf rest st

/-- The number written by a string of ASCII digits. -/
def digitValue (l : List Nat) : Nat :=
  l.foldl (fun a c => 10 * a + (c - 48)) 0

/-- The offsets at which the scan finds an `AMTA` tag, in scan order. -/
def amtaOffsets (fBuf : Buffer) : List Nat :=
  (scanOffsets fBuf.length).filter (isAMTA fBuf)

/-- The raw names recovered at the offsets of a list, in order. -/
def rawNames (fBuf : Buffer) : List Nat → Except ScanError (List Name)
  | [] => .ok []
  | i :: rest =>
    match recoverName fBuf i with
    | .error e => .error e
    | .ok name =>
      match rawNames fBuf rest with
      | .error e => .error e
      | .ok names => .ok (name :: names)

/-- The raw names of a list handled one after the other by `pushName`. -/
def pushAll : List Name → List Name → Except ScanError (List Name)
  | audioNames, [] => .ok audioNames
  | audioNames, name :: rest =>
    match pushName audioNames name with
    | .error e => .error e
    | .ok audioNames => pushAll audioNames rest

/-- Three `AMTA` tags with the raw names `a`, `a-1`, `a`, followed by a `BWAV` tag. -/
def repeatedNames : Buffer :=
  bytesOf "AMTA" ++ [0, 97, 0, 0] ++ bytesOf "AMTA" ++ [0, 97, 45, 49] ++
    bytesOf "AMTA" ++ [0, 97, 0, 0] ++ bytesOf "BWAV" ++ [0, 0, 0, 0]

/-- A 500-byte buffer: an `AMTA` tag at `0`, the name `bar` in front of a `BWAV` tag at
`100`, and a second `BWAV` tag at `340`. -/
def barExample : Buffer :=
  bytesOf "AMTA" ++ List.replicate 91 0 ++ bytesOf "bar" ++ [0, 0] ++ bytesOf "BWAV" ++
    List.replicate 236 7 ++ bytesOf "BWAV" ++ List.replicate 156 9

/-- Two `BWAV` tags, at `0` and at `8`, and no `AMTA` tag. -/
def twoUnnamed : Buffer :=
  bytesOf "BWAV" ++ [0, 0, 0, 0] ++ bytesOf "BWAV" ++ [0, 0, 0, 0]

/-- An `AMTA` tag with the name `a`, and two `BWAV` tags at `8` and `16`. -/
def twoSegments : Buffer :=
  bytesOf "AMTA" ++ [0, 97, 0, 0] ++ bytesOf "BWAV" ++ [1, 2, 3, 4] ++
    bytesOf "BWAV" ++ [5, 6, 7, 8, 9]

/-- Eight bytes whose last four are a `BWAV` tag. -/
def tagAtEnd : Buffer := [0, 0, 0, 0] ++ bytesOf "BWAV"

/-- The buffer with the bytes `extra` put in front of position `s`. -/
def insertBytes (fBuf : Buffer) (s : Nat) (extra : List Nat) : Buffer :=
  fBuf.take s ++ extra ++ fBuf.drop s

/-- An `AMTA` tag, filler, the name `foo` between two null bytes, a `BWAV` tag at `12`
and two more bytes. -/
def fooExample : Buffer :=
  bytesOf "AMTA" ++ [9, 9, 9, 0, 102, 111, 111, 0] ++ bytesOf "BWAV" ++ [1, 2]

/-- An `AMTA` tag, the name `foo`, its null terminator at `8`, three more null bytes, a
`BWAV` tag at `12` and four more bytes. -/
def fooPadded : Buffer :=
  bytesOf "AMTA" ++ [0, 102, 111, 111, 0, 0, 0, 0] ++ bytesOf "BWAV" ++ [1, 2, 3, 4]

/-- Two `AMTA` tags with the names `a` and `b`, followed by one `BWAV` tag at `16`. -/
def twoNamesOneTag : Buffer :=
  bytesOf "AMTA" ++ [0, 97, 0, 0] ++ bytesOf "AMTA" ++ [0, 98, 0, 0] ++
    bytesOf "BWAV" ++ [1, 2, 3, 4, 5]

/-- The indices at which the loop of lines 142-149 reads `fBuf`, in the order of the
reads. As in `backScan` the first argument is `k + 1`, and `k = -1` is the read of
`fBuf[-1]`. -/
def backScanReads (fBuf : Buffer) : Nat → Bool → List Int
  | 0, _ => [-1]
  | k + 1, foundName =>
    (k : Int) ::
      match fBuf[k]? with
      | none => []
      | some c =>
        if c ≠ 0 ∨ foundName = false then
          if c ≠ 0 then backScanReads fBuf k true
          else backScanReads fBuf k foundName
        else []

/-- An `AMTA` tag whose name is `extra_1`, and two `BWAV` tags at `12` and `20`. -/
def extraClash : Buffer :=
  bytesOf "AMTA" ++ [0] ++ bytesOf "extra_1" ++ bytesOf "BWAV" ++ [1, 2, 3, 4] ++
    bytesOf "BWAV" ++ [1, 2, 3, 4, 5]

/-- An `AMTA` tag at `0`, four non-null bytes and a `BWAV` tag at `8`: no null byte lies
in front of the name. -/
def noNullBefore : Buffer :=
  bytesOf "AMTA" ++ [1, 1, 1, 1] ++ bytesOf "BWAV" ++ [0, 0, 0, 0]

/-- A `BWAV` tag at `0` and an `AMTA` tag at `8` that no tag follows. -/
def noNextTag : Buffer :=
  bytesOf "BWAV" ++ [1, 2, 3, 4] ++ bytesOf "AMTA" ++ [0, 97, 0, 0] ++ [0, 0, 0, 0]

/-- Four null bytes, an `AMTA` tag at `4`, four non-null bytes and a `BWAV` tag at
`12`. -/
def nullInFront : Buffer :=
  [0, 0, 0, 0] ++ bytesOf "AMTA" ++ [1, 1, 1, 1] ++ bytesOf "BWAV" ++ [1, 2, 3, 4, 5]

/-! ### The scan loop visits the aligned offsets below `barsSize - 4` -/

theorem filter_range_step (n i : Nat) (hi : i % 4 = 0) (h : i + 4 < n) :
    (List.range' i (n - i)).filter (fun i => i % 4 = 0 ∧ i + 4 < n) =
      i :: (List.range' (i + 4) (n - (i + 4))).filter (fun i => i % 4 = 0 ∧ i + 4 < n) := by
  have e : n - i = (n - (i + 4)) + 1 + 1 + 1 + 1 := by omega
  rw [e]
  simp only [List.range'_succ, List.filter_cons]
  have h1 : ¬ ((i + 1) % 4 = 0) := by omega
  have h2 : ¬ ((i + 1 + 1) % 4 = 0) := by omega
  have h3 : ¬ ((i + 1 + 1 + 1) % 4 = 0) := by omega
  simp [hi, h, h1, h2, h3, Nat.add_assoc]

theorem filter_range_done (n i : Nat) (h : ¬ i + 4 < n) :
    (List.range' i (n - i)).filter (fun i => i % 4 = 0 ∧ i + 4 < n) = [] := by
  rw [List.filter_eq_nil_iff]
  intro a ha
  rw [List.mem_range'_1] at ha
  simp
  omega

theorem scanLoop_eq_scanList (fBuf : Buffer) :
    ∀ (fuel i : Nat) (st : List Name × List Nat), i % 4 = 0 → fBuf.length - i < fuel →
      scanLoop fBuf fuel i st =
        scanList fBuf ((List.range' i (fBuf.length - i)).filter
          (fun i => i % 4 = 0 ∧ i + 4 < fBuf.length)) st := by
  intro fuel
  induction fuel with
  | zero => intro i st _ h; omega
  | succ fuel ih =>
    intro i st hi hf
    unfold scanLoop
    by_cases h : i + 4 < fBuf.length
    · rw [filter_range_step _ _ hi h, if_pos h]
      simp only [scanList]
      cases hb : scanBody fBuf i st with
      | error e => rfl
      | ok st2 => exact ih (i + 4) st2 (by omega) (by omega)
    · rw [filter_range_done _ _ h, if_neg h]
      rfl

theorem scan_eq_scanList (fBuf : Buffer) :
    scan fBuf = scanList fBuf (scanOffsets fBuf.length) ([], []) := by
  unfold scan scanOffsets
  rw [scanLoop_eq_scanList fBuf _ 0 _ (by simp) (by omega), List.range_eq_range']
  simp

theorem scanBody_ok {fBuf : Buffer} {i : Nat} {st st' : List Name × List Nat}
    (h : scanBody fBuf i st = .ok st') :
    st'.2 = st.2 ++ [i].filter (isBWAV fBuf) ∧
      ((isAMTA fBuf i = false ∧ st'.1 = st.1) ∨
        (isAMTA fBuf i = true ∧ ∃ r n, recoverName fBuf i = .ok r ∧
          acceptName st.1 r = .ok n ∧ st'.1 = st.1 ++ [n])) := by
  unfold scanBody at h
  have e : (if isBWAV fBuf i = true then st.2 ++ [i] else st.2) =
      st.2 ++ [i].filter (isBWAV fBuf) := by
    by_cases hb : isBWAV fBuf i <;> simp [hb]
  rw [e] at h
  by_cases ha : isAMTA fBuf i = true
  · rw [if_pos ha] at h
    cases hr : recoverName fBuf i with
    | error e => rw [hr] at h; cases h
    | ok r =>
      rw [hr] at h
      simp only [pushName] at h
      cases hn : acceptName st.1 r with
      | error e => rw [hn] at h; cases h
      | ok n =>
        rw [hn] at h
        cases h
        exact ⟨rfl, Or.inr ⟨ha, r, n, rfl, hn, rfl⟩⟩
  · rw [if_neg ha] at h
    cases h
    exact ⟨rfl, Or.inl ⟨by simpa using ha, rfl⟩⟩

theorem scanBody_offsets {fBuf : Buffer} {i : Nat} {st st' : List Name × List Nat}
    (h : scanBody fBuf i st = .ok st') :
    st'.2 = st.2 ++ [i].filter (isBWAV fBuf) := (scanBody_ok h).1

theorem scanList_offsets (fBuf : Buffer) :
    ∀ (l : List Nat) (st st' : List Name × List Nat), scanList fBuf l st = .ok st' →
      st'.2 = st.2 ++ l.filter (isBWAV fBuf) := by
  intro l
  induction l with
  | nil => intro st st' h; cases h; simp
  | cons i rest ih =>
    intro st st' h
    simp only [scanList] at h
    cases hb : scanBody fBuf i st with
    | error e => rw [hb] at h; cases h
    | ok st2 =>
      rw [hb] at h
      rw [ih st2 st' h, scanBody_offsets hb]
      by_cases hi : isBWAV fBuf i <;> simp [hi, List.filter_cons]

theorem scan_offsets {fBuf : Buffer} {names : List Name} {offs : List Nat}
    (h : scan fBuf = .ok (names, offs)) :
    offs = (scanOffsets fBuf.length).filter (isBWAV fBuf) := by
  rw [scan_eq_scanList] at h
  simpa using scanList_offsets fBuf _ _ _ h

theorem mem_scanOffsets {n i : Nat} : i ∈ scanOffsets n ↔ i % 4 = 0 ∧ i + 4 < n := by
  unfold scanOffsets
  simp only [List.mem_filter, List.mem_range, decide_eq_true_eq]
  omega

theorem scanOffsets_pairwise (n : Nat) : (scanOffsets n).Pairwise (· < ·) :=
  List.Pairwise.filter _ (List.pairwise_lt_range n)

/-! ### The write loop and the slices it cuts -/

theorem segmentRange_eq {offs : List Nat} {size i : Nat} (hi : i < offs.length) :
    segmentRange offs size i =
      .ok (offs.getD i 0,
        (if i + 1 = offs.length then (size : Int) else ((offs.getD (i + 1) 0 : Nat) : Int))
          - (offs.getD i 0 : Nat)) := by
  unfold segmentRange
  rw [List.getElem?_eq_getElem hi]
  simp only [List.getD_eq_getElem?_getD, List.getElem?_eq_getElem hi, Option.getD_some]
  by_cases h : i + 1 = offs.length
  · simp [h]
  · have h2 : i + 1 < offs.length := by omega
    simp [h, List.getElem?_eq_getElem h2]

theorem writeLoop_ok {names : List Name} {offs : List Nat} {size : Nat} :
    ∀ (n i : Nat) (segs : List Segment), writeLoop names offs size n i = .ok segs →
      segs.length = n ∧ ∀ t, t < n → ∃ seg, segs[t]? = some seg ∧
        segmentAt names offs size (i + t) = .ok seg := by
  intro n
  induction n with
  | zero =>
    intro i segs h
    simp only [writeLoop] at h
    cases h
    exact ⟨rfl, fun t ht => absurd ht (Nat.not_lt_zero t)⟩
  | succ n ih =>
    intro i segs h
    simp only [writeLoop] at h
    cases hs : segmentAt names offs size i with
    | error e => rw [hs] at h; cases h
    | ok seg =>
      rw [hs] at h
      dsimp only at h
      cases hw : writeLoop names offs size n (i + 1) with
      | error e => rw [hw] at h; cases h
      | ok rest =>
        rw [hw] at h
        cases h
        obtain ⟨hl, hr⟩ := ih (i + 1) rest hw
        refine ⟨by simp [hl], ?_⟩
        intro t ht
        cases t with
        | zero => exact ⟨seg, by simp, hs⟩
        | succ t =>
          obtain ⟨s, hs1, hs2⟩ := hr t (by omega)
          refine ⟨s, by simpa using hs1, ?_⟩
          have e : i + (t + 1) = i + 1 + t := by omega
          rw [e]; exact hs2

theorem segmentAt_ok {names : List Name} {offs : List Nat} {size i : Nat} {seg : Segment}
    (h : segmentAt names offs size i = .ok seg) :
    segmentRange offs size i = .ok (seg.start, seg.length) ∧ names[i]? = some seg.name := by
  unfold segmentAt at h
  cases hr : segmentRange offs size i with
  | error e => rw [hr] at h; cases h
  | ok p =>
    rw [hr] at h
    obtain ⟨o, w⟩ := p
    dsimp only at h
    cases hn : names[i]? with
    | none => rw [hn] at h; cases h
    | some nm => rw [hn] at h; cases h; exact ⟨rfl, rfl⟩

theorem scan_offsets_sorted {fBuf : Buffer} {names : List Name} {offs : List Nat}
    (h : scan fBuf = .ok (names, offs)) :
    offs.Pairwise (· < ·) ∧ ∀ o ∈ offs, o % 4 = 0 ∧ o + 4 < fBuf.length ∧ isBWAV fBuf o = true := by
  rw [scan_offsets h]
  refine ⟨List.Pairwise.filter _ (scanOffsets_pairwise _), ?_⟩
  intro o ho
  rw [List.mem_filter, mem_scanOffsets] at ho
  exact ⟨ho.1.1, ho.1.2, ho.2⟩

/-- C3, the code at the buffer `tagAtEnd`: offset `4` is a multiple of `4`, ends at the
end of the buffer and holds `BWAV`, but the loop condition `i < barsSize - 4` is false
at `i = 4`, so the offset is not visited and nothing is recorded. -/
theorem scan_skips_last_word :
    (4 % 4 = 0 ∧ 4 + 4 ≤ tagAtEnd.length ∧ isBWAV tagAtEnd 4 = true) ∧
    scanOffsets tagAtEnd.length = [0] ∧
    scan tagAtEnd = .ok ([], []) := by
  decide

theorem getD_lt_of_sorted {offs : List Nat} (hs : offs.Pairwise (· < ·)) {i j : Nat}
    (hij : i < j) (hj : j < offs.length) : offs.getD i 0 < offs.getD j 0 := by
  have hi : i < offs.length := by omega
  rw [List.getD_eq_getElem _ _ hi, List.getD_eq_getElem _ _ hj]
  exact (List.pairwise_iff_getElem.mp hs) i j hi hj hij

theorem getD_le_of_sorted {offs : List Nat} (hs : offs.Pairwise (· < ·)) {i j : Nat}
    (hij : i ≤ j) (hj : j < offs.length) : offs.getD i 0 ≤ offs.getD j 0 := by
  rcases Nat.eq_or_lt_of_le hij with h | h
  · subst h; exact le_rfl
  · exact le_of_lt (getD_lt_of_sorted hs h hj)

/-- The slices of a completed run. When the scan finds at least one `BWAV` tag, the pairs
`(offset, writeSize)` computed by the iterations of the write loop, in order, cut
`[first offset, barsSize)` into consecutive non-empty pieces: the first start is the
first recorded offset, every later start is the previous start plus the previous
length, the last piece ends at `barsSize`, starts increase strictly, no two pieces
overlap, and every piece ends inside the buffer. A run that completes writes exactly
these pairs; a run that is stopped by a missing name writes only the first of them. -/
theorem segments_partition (fBuf : Buffer) (names : List Name) (offs : List Nat)
    (hscan : scan fBuf = .ok (names, offs)) (hne : offs ≠ []) :
    ∃ rs : List (Nat × Int),
      rs.length = offs.length ∧
      (∀ i, i < offs.length →
        ∃ r, rs[i]? = some r ∧ segmentRange offs fBuf.length i = .ok r) ∧
      (∀ segs, processBuffer fBuf = .ok segs →
        segs.map (fun s => (s.start, s.length)) = rs) ∧
      rs.head?.map Prod.fst = offs.head? ∧
      (∀ i a b, rs[i]? = some a → rs[i+1]? = some b → (b.1 : Int) = a.1 + a.2) ∧
      (∃ l, rs.getLast? = some l ∧ (l.1 : Int) + l.2 = fBuf.length) ∧
      rs.Pairwise (fun a b => a.1 < b.1) ∧
      rs.Pairwise (fun a b => (a.1 : Int) + a.2 ≤ b.1) ∧
      ∀ r ∈ rs, 0 < r.2 ∧ (r.1 : Int) + r.2 ≤ fBuf.length := by
  obtain ⟨hsorted, hmem⟩ := scan_offsets_sorted hscan
  have hpos : 0 < offs.length := List.length_pos.mpr hne
  have hb : ∀ i, i < offs.length → offs.getD i 0 + 4 < fBuf.length := by
    intro i hi
    rw [List.getD_eq_getElem _ _ hi]
    exact (hmem _ (List.getElem_mem hi)).2.1
  let f : Nat → Nat × Int := fun i =>
    (offs.getD i 0,
      (if i + 1 = offs.length then (fBuf.length : Int) else ((offs.getD (i + 1) 0 : Nat) : Int))
        - (offs.getD i 0 : Nat))
  have hf : ∀ i, i < offs.length → segmentRange offs fBuf.length i = .ok (f i) :=
    fun i hi => segmentRange_eq hi
  have hget : ∀ i, i < offs.length → ((List.range offs.length).map f)[i]? = some (f i) := by
    intro i hi
    simp [List.getElem?_map, List.getElem?_range hi]
  have hget' : ∀ i r, ((List.range offs.length).map f)[i]? = some r →
      i < offs.length ∧ r = f i := by
    intro i r h
    have hi : i < offs.length := by
      by_contra hc
      rw [List.getElem?_eq_none (by simp; omega)] at h
      cases h
    rw [hget i hi] at h
    exact ⟨hi, (Option.some.inj h).symm⟩
  -- the end of piece `i` is the next start, or `barsSize` for the last one
  have hend : ∀ i, i < offs.length → ((f i).1 : Int) + (f i).2 =
      if i + 1 = offs.length then (fBuf.length : Int) else ((offs.getD (i + 1) 0 : Nat) : Int) := by
    intro i hi
    simp only [f]
    omega
  refine ⟨(List.range offs.length).map f, by simp, ?_, ?_, ?_, ?_, ?_, ?_, ?_, ?_⟩
  · intro i hi
    exact ⟨f i, hget i hi, hf i hi⟩
  · intro segs hp
    unfold processBuffer at hp
    rw [hscan] at hp
    dsimp only at hp
    cases hpad : padNames names offs.length with
    | error e => rw [hpad] at hp; cases hp
    | ok padded =>
      rw [hpad] at hp
      dsimp only at hp
      obtain ⟨hlen, hsegs⟩ := writeLoop_ok _ _ _ hp
      apply List.ext_getElem?
      intro i
      by_cases hi : i < offs.length
      · obtain ⟨seg, hs1, hs2⟩ := hsegs i hi
        rw [Nat.zero_add] at hs2
        have hr := (segmentAt_ok hs2).1
        rw [hf i hi] at hr
        rw [hget i hi, List.getElem?_map, hs1]
        simp only [Option.map_some']
        exact congrArg some (Except.ok.inj hr).symm
      · rw [List.getElem?_eq_none (by simp; omega), List.getElem?_eq_none (by simp; omega)]
  · cases offs with
    | nil => exact absurd rfl hne
    | cons o rest => simp [List.range_succ_eq_map, f]
  · intro i a b ha hb'
    obtain ⟨hi, rfl⟩ := hget' i a ha
    obtain ⟨hi1, rfl⟩ := hget' (i + 1) b hb'
    rw [hend i hi, if_neg (by omega)]
  · refine ⟨f (offs.length - 1), ?_, ?_⟩
    · rw [List.getLast?_eq_getElem?]
      simpa using hget (offs.length - 1) (by omega)
    · rw [hend _ (by omega), if_pos (by omega)]
  · rw [List.pairwise_map]
    refine List.Pairwise.imp_of_mem ?_ (List.pairwise_lt_range offs.length)
    intro i j _ hj hij
    exact getD_lt_of_sorted hsorted hij (List.mem_range.mp hj)
  · rw [List.pairwise_map]
    refine List.Pairwise.imp_of_mem ?_ (List.pairwise_lt_range offs.length)
    intro i j hi hj hij
    have hj' := List.mem_range.mp hj
    rw [hend i (List.mem_range.mp hi), if_neg (by omega)]
    exact_mod_cast getD_le_of_sorted hsorted (Nat.succ_le_of_lt hij) hj'
  · intro r hr
    rw [List.mem_map] at hr
    obtain ⟨i, hi, rfl⟩ := hr
    have hi' := List.mem_range.mp hi
    have h1 := hb i hi'
    refine ⟨?_, ?_⟩
    · simp only [f]
      by_cases hl : i + 1 = offs.length
      · rw [if_pos hl]; omega
      · rw [if_neg hl]
        have := getD_lt_of_sorted hsorted (by omega : i < i + 1) (by omega : i + 1 < offs.length)
        omega
    · rw [hend i hi']
      by_cases hl : i + 1 = offs.length
      · rw [if_pos hl]
      · rw [if_neg hl]
        have := hb (i + 1) (by omega)
        omega

/-- The slices of the completed run on `twoSegments`, where the scan records the offsets
`8` and `16`. -/
theorem segments_partition_witness :
    scan twoSegments = .ok ([bytesOf "a"], [8, 16]) ∧
    processBuffer twoSegments = .ok [⟨bytesOf "a", 8, 8⟩, ⟨bytesOf "extra_1", 16, 9⟩] ∧
    ∃ rs : List (Nat × Int),
      rs.length = [8, 16].length ∧
      (∀ i, i < [8, 16].length →
        ∃ r, rs[i]? = some r ∧ segmentRange [8, 16] twoSegments.length i = .ok r) ∧
      (∀ segs, processBuffer twoSegments = .ok segs →
        segs.map (fun s => (s.start, s.length)) = rs) ∧
      rs.head?.map Prod.fst = [8, 16].head? ∧
      (∀ i a b, rs[i]? = some a → rs[i+1]? = some b → (b.1 : Int) = a.1 + a.2) ∧
      (∃ l, rs.getLast? = some l ∧ (l.1 : Int) + l.2 = twoSegments.length) ∧
      rs.Pairwise (fun a b => a.1 < b.1) ∧
      rs.Pairwise (fun a b => (a.1 : Int) + a.2 ≤ b.1) ∧
      ∀ r ∈ rs, 0 < r.2 ∧ (r.1 : Int) + r.2 ≤ twoSegments.length :=
  ⟨by decide, by decide,
    segments_partition twoSegments [bytesOf "a"] [8, 16] (by decide) (by decide)⟩

/-- C7, the code at the four-byte buffer `BWAV`: the only aligned offset is `0`, it
holds the data tag and there is no `AMTA` tag, but the scan loop does not run at all
(`0 < barsSize - 4` is false) and no segment is written. -/
theorem lone_tag_at_end_is_dropped :
    isBWAV (bytesOf "BWAV") 0 = true ∧
    (∀ t, t < (bytesOf "BWAV").length → t % 4 = 0 → t = 0) ∧
    isAMTA (bytesOf "BWAV") 0 = false ∧
    scan (bytesOf "BWAV") = .ok ([], []) ∧
    processBuffer (bytesOf "BWAV") = .ok [] := by
  decide

/-! ### Recovery of a name in front of the next tag -/

theorem getElem?_of_getD_ne {fBuf : Buffer} {t : Nat} (h : fBuf.getD t 0 ≠ 0) :
    ∃ c, fBuf[t]? = some c ∧ c ≠ 0 := by
  rw [List.getD_eq_getElem?_getD] at h
  cases hc : fBuf[t]? with
  | none => rw [hc] at h; exact absurd rfl h
  | some c => rw [hc] at h; exact ⟨c, rfl, h⟩

theorem getElem?_of_getD_eq {fBuf : Buffer} {t : Nat} (ht : t < fBuf.length)
    (h : fBuf.getD t 0 = 0) : fBuf[t]? = some 0 := by
  rw [List.getD_eq_getElem _ _ ht] at h
  rw [List.getElem?_eq_getElem ht, h]

/-- The backward loop steps over null bytes as long as no name byte was seen. -/
theorem backScan_skip (fBuf : Buffer) (p : Nat) :
    ∀ (d : Nat), p + 1 + d ≤ fBuf.length →
      (∀ t, p < t → t < p + 1 + d → fBuf.getD t 0 = 0) →
      backScan fBuf (p + 1 + d) false none 0 = backScan fBuf (p + 1) false none 0 := by
  intro d
  induction d with
  | zero => intro _ _; rfl
  | succ d ih =>
    intro hlen hz
    have e : p + 1 + (d + 1) = (p + 1 + d) + 1 := by omega
    rw [e, backScan, getElem?_of_getD_eq (by omega) (hz (p + 1 + d) (by omega) (by omega))]
    simp only [ne_eq, not_true_eq_false, or_true, if_true, if_false]
    exact ih (by omega) (fun t h1 h2 => hz t h1 (by omega))

/-- The backward loop collects a run of non-null bytes. -/
theorem backScan_collect (fBuf : Buffer) (q : Nat) :
    ∀ (d : Nat) (found : Bool) (ns : Option Nat) (nl : Nat),
      (∀ t, q < t → t < q + 1 + d → fBuf.getD t 0 ≠ 0) →
      (d = 0 → found = true ∧ ns = some (q + 1)) →
      fBuf.getD q 0 = 0 → q < fBuf.length →
      backScan fBuf (q + 1 + d) found ns nl = .ok (some (q + 1), nl + d) := by
  intro d
  induction d with
  | zero =>
    intro found ns nl _ h0 hq hlen
    obtain ⟨rfl, rfl⟩ := h0 rfl
    rw [Nat.add_zero, backScan, getElem?_of_getD_eq hlen hq]
    simp
  | succ d ih =>
    intro found ns nl hnz _ hq hlen
    have e : q + 1 + (d + 1) = (q + 1 + d) + 1 := by omega
    obtain ⟨c, hc, hc0⟩ := getElem?_of_getD_ne (hnz (q + 1 + d) (by omega) (by omega))
    rw [e, backScan, hc]
    simp only [ne_eq, hc0, not_false_eq_true, true_or, if_true]
    rw [ih true (some (q + 1 + d)) (nl + 1) (fun t h1 h2 => hnz t h1 (by omega))
      (fun h => ⟨rfl, by rw [h]⟩) hq hlen]
    congr 2
    omega

/-- The forward loop runs up to the first tag and starts the backward loop there. -/
theorem nameScan_first_tag (fBuf : Buffer) :
    ∀ (d fuel i : Nat), d < fuel → i + 4 * d + 4 < fBuf.length →
      (∀ t, t < d → isTag fBuf (i + 4 * t) = false) → isTag fBuf (i + 4 * d) = true →
      nameScan fBuf fuel i = backScan fBuf (i + 4 * d) false none 0 := by
  intro d
  induction d with
  | zero =>
    intro fuel i hf hb _ ht
    cases fuel with
    | zero => omega
    | succ fuel =>
      rw [nameScan, if_pos (by omega)]
      simp only [Nat.mul_zero, Nat.add_zero] at ht ⊢
      rw [if_pos ht]
  | succ d ih =>
    intro fuel i hf hb hnt ht
    cases fuel with
    | zero => omega
    | succ fuel =>
      rw [nameScan, if_pos (by omega)]
      have h0 := hnt 0 (by omega)
      simp only [Nat.mul_zero, Nat.add_zero] at h0
      rw [h0]
      simp only [Bool.false_eq_true, if_false]
      have e : ∀ t, i + 4 + 4 * t = i + 4 * (t + 1) := by intro t; omega
      rw [ih fuel (i + 4) (by omega) (by rw [e]; exact hb)
        (fun t h => by rw [e]; exact hnt (t + 1) (by omega)) (by rw [e]; exact ht), e]

/-- The name recovered for a tag at `m`, when the next tag is at `j`, the last non-null
byte before `j` is at `p` and the closest null byte below `p` is at `q`: the bytes
`q + 1 .. p`. -/
theorem recoverName_eq (fBuf : Buffer) (m j p q : Nat)
    (hm : m % 4 = 0) (hj : j % 4 = 0) (hmj : m + 4 ≤ j) (hjb : j + 4 < fBuf.length)
    (htag : isTag fBuf j = true)
    (hfirst : ∀ t, t % 4 = 0 → m + 4 ≤ t → t < j → isTag fBuf t = false)
    (hp : p < j) (hpz : ∀ t, p < t → t < j → fBuf.getD t 0 = 0)
    (hq : q < p) (hqz : fBuf.getD q 0 = 0) (hrun : ∀ t, q < t → t ≤ p → fBuf.getD t 0 ≠ 0) :
    recoverName fBuf m = .ok ((fBuf.drop (q + 1)).take (p - q)) := by
  have hd : m + 4 + 4 * ((j - (m + 4)) / 4) = j := by omega
  have h1 : nameScan fBuf (fBuf.length + 1) (m + 4) = backScan fBuf j false none 0 := by
    have := nameScan_first_tag fBuf ((j - (m + 4)) / 4) (fBuf.length + 1) (m + 4) (by omega)
      (by rw [hd]; exact hjb)
      (fun t ht => hfirst _ (by omega) (by omega) (by omega)) (by rw [hd]; exact htag)
    rw [this, hd]
  have h2 : backScan fBuf j false none 0 = backScan fBuf (p + 1) false none 0 := by
    have := backScan_skip fBuf p (j - (p + 1)) (by omega) (fun t a b => hpz t a (by omega))
    have e : p + 1 + (j - (p + 1)) = j := by omega
    rwa [e] at this
  have h3 : backScan fBuf (p + 1) false none 0 = .ok (some (q + 1), p - q) := by
    have := backScan_collect fBuf q (p - q) false none 0 (fun t a b => hrun t a (by omega))
      (fun h => by omega) hqz (by omega)
    have e : q + 1 + (p - q) = p + 1 := by omega
    rwa [e, Nat.zero_add] at this
  unfold recoverName
  rw [h1, h2, h3]

/-- C4. Let `m` be an aligned offset (in particular a detected `AMTA` tag), `j` the first
aligned offset from `m + 4` on, inside the bound of the forward loop, that holds a tag,
and `p` the greatest index below `j` with a non-null byte. If some null byte lies below
`p`, the recovered raw name is the maximal run of non-null bytes ending at `p`: it
starts right after the closest null byte `q` below `p`, has `p - q >= 1` bytes, which
are the buffer bytes `q + 1 .. p`, and holds no null byte. -/
theorem recovered_name_is_last_run (fBuf : Buffer) (m j p z : Nat)
    (hm : m % 4 = 0) (hj : j % 4 = 0) (hmj : m + 4 ≤ j) (hjb : j + 4 < fBuf.length)
    (htag : isTag fBuf j = true)
    (hfirst : ∀ t, t % 4 = 0 → m + 4 ≤ t → t < j → isTag fBuf t = false)
    (hp : p < j) (hpnz : fBuf.getD p 0 ≠ 0) (hpz : ∀ t, p < t → t < j → fBuf.getD t 0 = 0)
    (hz : z < p) (hzz : fBuf.getD z 0 = 0) :
    ∃ (q : Nat) (name : Name),
      recoverName fBuf m = .ok name ∧
      q < p ∧ fBuf.getD q 0 = 0 ∧ (∀ t, q < t → t ≤ p → fBuf.getD t 0 ≠ 0) ∧
      name = (fBuf.drop (q + 1)).take (p - q) ∧
      name.length = p - q ∧ 1 ≤ name.length ∧
      (∀ t, t < p - q → name[t]? = fBuf[q + 1 + t]?) ∧
      0 ∉ name := by
  let P : Nat → Prop := fun t => fBuf.getD t 0 = 0
  have hzle : z ≤ p - 1 := by omega
  have hq0 : P (Nat.findGreatest P (p - 1)) := Nat.findGreatest_spec (P := P) hzle hzz
  have hqle : Nat.findGreatest P (p - 1) ≤ p - 1 := Nat.findGreatest_le (p - 1)
  have hrun : ∀ t, Nat.findGreatest P (p - 1) < t → t ≤ p → fBuf.getD t 0 ≠ 0 := by
    intro t h1 h2
    rcases Nat.eq_or_lt_of_le h2 with h | h
    · rw [h]; exact hpnz
    · exact Nat.findGreatest_is_greatest (P := P) h1 (by omega)
  generalize Nat.findGreatest P (p - 1) = q at hq0 hqle hrun
  have hqp : q < p := by omega
  have hlen : ((fBuf.drop (q + 1)).take (p - q)).length = p - q := by
    rw [List.length_take, List.length_drop]
    omega
  have hidx : ∀ t, t < p - q → ((fBuf.drop (q + 1)).take (p - q))[t]? = fBuf[q + 1 + t]? := by
    intro t ht
    rw [List.getElem?_take_of_lt ht, List.getElem?_drop]
  refine ⟨q, _, recoverName_eq fBuf m j p q hm hj hmj hjb htag hfirst hp hpz hqp hq0 hrun,
    hqp, hq0, hrun, rfl, hlen, by omega, hidx, ?_⟩
  intro h0
  obtain ⟨t, ht, he⟩ := List.getElem_of_mem h0
  rw [hlen] at ht
  have h1 := hidx t ht
  rw [List.getElem?_eq_getElem (by rw [hlen]; exact ht), he] at h1
  have h2 := hrun (q + 1 + t) (by omega) (by omega)
  rw [List.getD_eq_getElem?_getD, ← h1] at h2
  exact h2 rfl

/-- C4 at `repeatedNames`: for the tag at `0` the next tag is at `8`, the last non-null
byte before it is at `5` and a null byte is at `4`; the name is the one byte `a`. -/
theorem recovered_name_is_last_run_witness :
    recoverName repeatedNames 0 = .ok [97] ∧
    ∃ (q : Nat) (name : Name),
      recoverName repeatedNames 0 = .ok name ∧
      q < 5 ∧ repeatedNames.getD q 0 = 0 ∧
      (∀ t, q < t → t ≤ 5 → repeatedNames.getD t 0 ≠ 0) ∧
      name = (repeatedNames.drop (q + 1)).take (5 - q) ∧
      name.length = 5 - q ∧ 1 ≤ name.length ∧
      (∀ t, t < 5 - q → name[t]? = repeatedNames[q + 1 + t]?) ∧
      0 ∉ name :=
  ⟨by decide,
    recovered_name_is_last_run repeatedNames 0 8 5 4 (by decide) (by decide) (by decide)
      (by decide) (by decide)
      (by intro t h1 h2 h3; obtain rfl : t = 4 := by omega
          decide)
      (by decide) (by decide)
      (by intro t h1 h2; interval_cases t <;> decide) (by decide) (by decide)⟩

/-! ### `to_string` -/

theorem digitChar_toNat (k : Nat) (hk : k < 10) : (Nat.digitChar k).toNat = 48 + k := by
  interval_cases k <;> rfl

theorem toDigitsCore_append :
    ∀ (fuel n : Nat) (ds : List Char),
      Nat.toDigitsCore 10 fuel n ds = Nat.toDigitsCore 10 fuel n [] ++ ds := by
  intro fuel
  induction fuel with
  | zero => intro n ds; simp [Nat.toDigitsCore]
  | succ fuel ih =>
    intro n ds
    simp only [Nat.toDigitsCore]
    by_cases h : n / 10 = 0
    · simp [h]
    · simp only [h, if_false]
      rw [ih (n / 10) (_ :: ds), ih (n / 10) [_]]
      simp

theorem digitValue_append_singleton (l : List Nat) (c : Nat) :
    digitValue (l ++ [c]) = 10 * digitValue l + (c - 48) := by
  simp [digitValue, List.foldl_append]

theorem digitValue_toDigitsCore :
    ∀ (fuel n : Nat), n < fuel →
      digitValue ((Nat.toDigitsCore 10 fuel n []).map Char.toNat) = n := by
  intro fuel
  induction fuel with
  | zero => intro n h; omega
  | succ fuel ih =>
    intro n hn
    simp only [Nat.toDigitsCore]
    by_cases h : n / 10 = 0
    · simp only [h, if_true, List.map_cons, List.map_nil]
      have hmod : n % 10 = n := by omega
      have hd := digitChar_toNat n (by omega)
      simp [digitValue, hmod, hd]
    · simp only [h, if_false]
      rw [toDigitsCore_append, List.map_append, List.map_cons, List.map_nil,
        digitValue_append_singleton, ih (n / 10) (by omega),
        digitChar_toNat (n % 10) (Nat.mod_lt _ (by omega))]
      omega

theorem digitValue_to_string (n : Nat) : digitValue (to_string n) = n :=
  digitValue_toDigitsCore (n + 1) n (Nat.lt_succ_self n)

theorem to_string_injective : Function.Injective to_string := by
  intro a b h
  rw [← digitValue_to_string a, ← digitValue_to_string b, h]

theorem toDigitsCore_digits :
    ∀ (fuel n : Nat) (ds : List Char) (c : Char),
      c ∈ Nat.toDigitsCore 10 fuel n ds → c ∈ ds ∨ (48 ≤ c.toNat ∧ c.toNat ≤ 57) := by
  intro fuel
  induction fuel with
  | zero => intro n ds c h; exact Or.inl (by simpa [Nat.toDigitsCore] using h)
  | succ fuel ih =>
    intro n ds c h
    simp only [Nat.toDigitsCore] at h
    have hd := digitChar_toNat (n % 10) (Nat.mod_lt _ (by omega))
    have hlt : n % 10 < 10 := Nat.mod_lt _ (by omega)
    by_cases h0 : n / 10 = 0
    · simp only [h0, if_true, List.mem_cons] at h
      rcases h with h | h
      · right; rw [h, hd]; omega
      · left; exact h
    · simp only [h0, if_false] at h
      rcases ih _ _ _ h with h | h
      · rw [List.mem_cons] at h
        rcases h with h | h
        · right; rw [h, hd]; omega
        · left; exact h
      · right; exact h

theorem to_string_digits (n c : Nat) (h : c ∈ to_string n) : 48 ≤ c ∧ c ≤ 57 := by
  unfold to_string Nat.toDigits at h
  rw [List.mem_map] at h
  obtain ⟨d, hd, rfl⟩ := h
  rcases toDigitsCore_digits _ _ _ _ hd with h | h
  · cases h
  · exact h

theorem suffixed_injective (name : Name) : Function.Injective (suffixed name) := by
  intro a b h
  unfold suffixed at h
  exact to_string_injective (List.append_cancel_left h)

/-! ### The probing loop -/

theorem probe_spec (audioNames : List Name) (name : Name) :
    ∀ (fuel c n : Nat), probe audioNames name fuel c = .ok n →
      c ≤ n ∧ n < c + fuel ∧ suffixed name n ∉ audioNames ∧
        ∀ k, c ≤ k → k < n → suffixed name k ∈ audioNames := by
  intro fuel
  induction fuel with
  | zero => intro c n h; simp [probe] at h
  | succ fuel ih =>
    intro c n h
    rw [probe] at h
    by_cases hc : suffixed name c ∈ audioNames
    · rw [if_pos hc] at h
      obtain ⟨h1, h2, h3, h4⟩ := ih (c + 1) n h
      refine ⟨by omega, by omega, h3, ?_⟩
      intro k hk1 hk2
      rcases Nat.eq_or_lt_of_le hk1 with e | e
      · rw [← e]; exact hc
      · exact h4 k e hk2
    · rw [if_neg hc] at h
      cases h
      exact ⟨le_rfl, by omega, hc, fun k h1 h2 => absurd h2 (by omega)⟩

theorem probe_total (audioNames : List Name) (name : Name) :
    ∀ (fuel c k : Nat), c ≤ k → k < c + fuel → suffixed name k ∉ audioNames →
      ∃ n, probe audioNames name fuel c = .ok n := by
  intro fuel
  induction fuel with
  | zero => intro c k h1 h2 _; omega
  | succ fuel ih =>
    intro c k h1 h2 h3
    rw [probe]
    by_cases hc : suffixed name c ∈ audioNames
    · rw [if_pos hc]
      have hne : c ≠ k := fun e => h3 (e ▸ hc)
      exact ih (c + 1) k (by omega) (by omega) h3
    · rw [if_neg hc]
      exact ⟨c, rfl⟩

/-- Among `name-1`, ..., `name-(length + 1)` one string is not in the list. -/
theorem exists_free_suffix (audioNames : List Name) (name : Name) :
    ∃ k, 1 ≤ k ∧ k < 1 + (audioNames.length + 1) ∧ suffixed name k ∉ audioNames := by
  by_contra hall
  push_neg at hall
  let l := (List.range (audioNames.length + 1)).map (fun t => suffixed name (t + 1))
  have hnd : l.Nodup := by
    refine List.Nodup.map ?_ (List.nodup_range _)
    intro a b h
    have := suffixed_injective name h
    omega
  have hsub : l ⊆ audioNames := by
    intro x hx
    rw [List.mem_map] at hx
    obtain ⟨t, ht, rfl⟩ := hx
    exact hall (t + 1) (by omega) (by have := List.mem_range.mp ht; omega)
  have hle := (List.subperm_of_subset hnd hsub).length_le
  simp [l] at hle

/-- C5. For every list `audioNames` of accepted names and every raw name `r`: when `r`
is not in the list, the list becomes `audioNames ++ [r]`; when `r` is in the list, it
becomes `audioNames ++ [r-n]`, where `r-n` is `r`, the byte `'-'` and the decimal
digits of `n`, and `n` is the smallest positive integer for which `r-n` is not in the
list. The probing loop always ends, with `n <= audioNames.length + 1`. -/
theorem push_name_deduplicates (audioNames : List Name) (r : Name) :
    (r ∉ audioNames →
      acceptName audioNames r = .ok r ∧ pushName audioNames r = .ok (audioNames ++ [r])) ∧
    (r ∈ audioNames → ∃ n,
      acceptName audioNames r = .ok (r ++ [45] ++ to_string n) ∧
      pushName audioNames r = .ok (audioNames ++ [r ++ [45] ++ to_string n]) ∧
      1 ≤ n ∧ n ≤ audioNames.length + 1 ∧
      r ++ [45] ++ to_string n ∉ audioNames ∧
      ∀ k, 1 ≤ k → k < n → r ++ [45] ++ to_string k ∈ audioNames) := by
  constructor
  · intro h
    simp [pushName, acceptName, h]
  · intro h
    obtain ⟨k, hk1, hk2, hk3⟩ := exists_free_suffix audioNames r
    obtain ⟨n, hn⟩ := probe_total audioNames r (audioNames.length + 1) 1 k hk1 hk2 hk3
    obtain ⟨h1, h2, h3, h4⟩ := probe_spec audioNames r _ _ _ hn
    refine ⟨n, ?_, ?_, h1, by omega, h3, h4⟩
    · simp [acceptName, h, hn, suffixed]
    · simp [pushName, acceptName, h, hn, suffixed]

/-- C5 at the list `a`, `a-1` and the raw name `a`: the name `a-2` is pushed. -/
theorem push_name_deduplicates_witness :
    [97] ∈ [[97], [97, 45, 49]] ∧
    pushName [[97], [97, 45, 49]] [97] = .ok [[97], [97, 45, 49], [97, 45, 50]] ∧
    ∃ n,
      acceptName [[97], [97, 45, 49]] [97] = .ok ([97] ++ [45] ++ to_string n) ∧
      pushName [[97], [97, 45, 49]] [97] =
        .ok ([[97], [97, 45, 49]] ++ [[97] ++ [45] ++ to_string n]) ∧
      1 ≤ n ∧ n ≤ [[97], [97, 45, 49]].length + 1 ∧
      [97] ++ [45] ++ to_string n ∉ [[97], [97, 45, 49]] ∧
      ∀ k, 1 ≤ k → k < n → [97] ++ [45] ++ to_string k ∈ [[97], [97, 45, 49]] :=
  ⟨by decide, by decide, (push_name_deduplicates [[97], [97, 45, 49]] [97]).2 (by decide)⟩

/-! ### The accepted names are the raw names of the `AMTA` tags, pushed in scan order -/

theorem scanList_names (fBuf : Buffer) :
    ∀ (l : List Nat) (st st' : List Name × List Nat), scanList fBuf l st = .ok st' →
      ∃ raws, rawNames fBuf (l.filter (isAMTA fBuf)) = .ok raws ∧
        pushAll st.1 raws = .ok st'.1 := by
  intro l
  induction l with
  | nil => intro st st' h; cases h; exact ⟨[], rfl, rfl⟩
  | cons i rest ih =>
    intro st st' h
    simp only [scanList] at h
    cases hb : scanBody fBuf i st with
    | error e => rw [hb] at h; cases h
    | ok st2 =>
      rw [hb] at h
      obtain ⟨raws, h1, h2⟩ := ih st2 st' h
      rcases (scanBody_ok hb).2 with ⟨ha, hs⟩ | ⟨ha, r, n, hr, hn, hs⟩
      · refine ⟨raws, ?_, ?_⟩
        · rw [List.filter_cons, ha]; exact h1
        · rw [← hs]; exact h2
      · refine ⟨r :: raws, ?_, ?_⟩
        · rw [List.filter_cons, ha]
          simp only [if_true, rawNames, hr, h1]
        · simp only [pushAll, pushName, hn]
          rw [← hs]; exact h2

theorem scan_names {fBuf : Buffer} {names : List Name} {offs : List Nat}
    (h : scan fBuf = .ok (names, offs)) :
    ∃ raws, rawNames fBuf (amtaOffsets fBuf) = .ok raws ∧ pushAll [] raws = .ok names := by
  rw [scan_eq_scanList] at h
  exact scanList_names fBuf _ _ _ h

theorem rawNames_length (fBuf : Buffer) :
    ∀ (l : List Nat) (raws : List Name), rawNames fBuf l = .ok raws →
      raws.length = l.length ∧
        ∀ t, t < l.length → ∃ i r, l[t]? = some i ∧ raws[t]? = some r ∧
          recoverName fBuf i = .ok r := by
  intro l
  induction l with
  | nil => intro raws h; cases h; exact ⟨rfl, fun t ht => absurd ht (Nat.not_lt_zero t)⟩
  | cons i rest ih =>
    intro raws h
    simp only [rawNames] at h
    cases hr : recoverName fBuf i with
    | error e => rw [hr] at h; cases h
    | ok r =>
      rw [hr] at h
      dsimp only at h
      cases hrest : rawNames fBuf rest with
      | error e => rw [hrest] at h; cases h
      | ok rs =>
        rw [hrest] at h
        cases h
        obtain ⟨h1, h2⟩ := ih rs hrest
        refine ⟨by simp [h1], ?_⟩
        intro t ht
        cases t with
        | zero => exact ⟨i, r, by simp, by simp, hr⟩
        | succ t =>
          obtain ⟨i', r', a, b, c⟩ := h2 t (by simpa using ht)
          exact ⟨i', r', by simpa using a, by simpa using b, c⟩

theorem pushAll_spec :
    ∀ (raws acc names : List Name), pushAll acc raws = .ok names →
      names.length = acc.length + raws.length ∧ names.take acc.length = acc ∧
        ∀ t r, raws[t]? = some r → ∃ nm, names[acc.length + t]? = some nm ∧
          acceptName (names.take (acc.length + t)) r = .ok nm := by
  intro raws
  induction raws with
  | nil =>
    intro acc names h
    cases h
    exact ⟨rfl, by simp, fun t r h => by simp at h⟩
  | cons r0 rest ih =>
    intro acc names h
    simp only [pushAll, pushName] at h
    cases hn : acceptName acc r0 with
    | error e => rw [hn] at h; cases h
    | ok nm0 =>
      rw [hn] at h
      dsimp only at h
      obtain ⟨h1, h2, h3⟩ := ih _ _ h
      have hlen : (acc ++ [nm0]).length = acc.length + 1 := by simp
      rw [hlen] at h1 h2 h3
      have hacc : names.take acc.length = acc := by
        have := congrArg (List.take acc.length) h2
        rw [List.take_take, Nat.min_eq_left (by omega)] at this
        rw [this]; simp
      refine ⟨by simp; omega, hacc, ?_⟩
      intro t r ht
      cases t with
      | zero =>
        simp only [List.getElem?_cons_zero, Option.some.injEq] at ht
        subst ht
        refine ⟨nm0, ?_, ?_⟩
        · have := congrArg (fun l => l[acc.length]?) h2
          simp only at this
          rw [List.getElem?_take_of_lt (by omega)] at this
          rw [Nat.add_zero, this]; simp
        · rw [Nat.add_zero, hacc]; exact hn
      | succ t =>
        obtain ⟨nm, a, b⟩ := h3 t r (by simpa using ht)
        have e : acc.length + (t + 1) = acc.length + 1 + t := by omega
        exact ⟨nm, by rw [e]; exact a, by rw [e]; exact b⟩

/-! ### Renaming of repeated names -/

theorem acceptName_of_mem {audioNames : List Name} {r : Name} (h : r ∈ audioNames) :
    ∃ n, acceptName audioNames r = .ok (suffixed r n) ∧ 1 ≤ n ∧
      n ≤ audioNames.length + 1 ∧ suffixed r n ∉ audioNames ∧
      ∀ k, 1 ≤ k → k < n → suffixed r k ∈ audioNames := by
  obtain ⟨k, hk1, hk2, hk3⟩ := exists_free_suffix audioNames r
  obtain ⟨n, hn⟩ := probe_total audioNames r (audioNames.length + 1) 1 k hk1 hk2 hk3
  obtain ⟨h1, h2, h3, h4⟩ := probe_spec audioNames r _ _ _ hn
  exact ⟨n, by simp [acceptName, h, hn], h1, by omega, h3, h4⟩

theorem acceptName_of_not_mem {audioNames : List Name} {r : Name} (h : r ∉ audioNames) :
    acceptName audioNames r = .ok r := by
  simp [acceptName, h]

theorem mem_take_of_earlier_raw {raws names : List Name} (hp : pushAll [] raws = .ok names)
    {s t : Nat} {r : Name} (hst : s < t) (hs : raws[s]? = some r) : r ∈ names.take t := by
  obtain ⟨_, _, h3⟩ := pushAll_spec raws [] names hp
  obtain ⟨nm, h1, h2⟩ := h3 s r hs
  simp only [List.length_nil, Nat.zero_add] at h1 h2
  by_cases hm : r ∈ names.take s
  · have e : names.take s = (names.take t).take s := by
      rw [List.take_take, Nat.min_eq_left (by omega)]
    rw [e] at hm
    exact List.mem_of_mem_take hm
  · rw [acceptName_of_not_mem hm] at h2
    cases h2
    have : (names.take t)[s]? = some r := by
      rw [List.getElem?_take_of_lt hst]; exact h1
    exact List.getElem?_mem this


/-- C6, as the code has it. Let `raws` be the raw names of the `AMTA` tags in scan order
and `names` the accepted names, `names.take t` being the names accepted before the tag
of index `t`. When the tag of index `t` yields a raw name `r` that an earlier tag
yielded too, its accepted name is `r-1` provided `r-1` is not among the names accepted
before it, and `r-2` provided `r-1` is among them and `r-2` is not. -/
theorem repeated_name_suffix (fBuf : Buffer) (names : List Name) (offs : List Nat)
    (raws : List Name) (s t : Nat) (r : Name)
    (hscan : scan fBuf = .ok (names, offs))
    (hraw : rawNames fBuf (amtaOffsets fBuf) = .ok raws)
    (hst : s < t) (hs : raws[s]? = some r) (ht : raws[t]? = some r) :
    (r ++ [45] ++ to_string 1 ∉ names.take t →
      names[t]? = some (r ++ [45] ++ to_string 1)) ∧
    (r ++ [45] ++ to_string 1 ∈ names.take t → r ++ [45] ++ to_string 2 ∉ names.take t →
      names[t]? = some (r ++ [45] ++ to_string 2)) := by
  obtain ⟨raws', h1, hp⟩ := scan_names hscan
  rw [hraw] at h1
  cases h1
  obtain ⟨_, _, h3⟩ := pushAll_spec raws [] names hp
  obtain ⟨nm, hnm, hacc⟩ := h3 t r ht
  simp only [List.length_nil, Nat.zero_add] at hnm hacc
  obtain ⟨n, hn, hn1, _, hfree, hmin⟩ := acceptName_of_mem (mem_take_of_earlier_raw hp hst hs)
  rw [hn] at hacc
  cases hacc
  change (suffixed r 1 ∉ _ → _ = some (suffixed r 1)) ∧
    (suffixed r 1 ∈ _ → suffixed r 2 ∉ _ → _ = some (suffixed r 2))
  constructor
  · intro h
    have : n = 1 := by
      by_contra hne
      exact h (hmin 1 le_rfl (by omega))
    rw [hnm, this]
  · intro ha hb
    have h1 : n ≠ 1 := fun e => hfree (e ▸ ha)
    have h2 : ¬ 2 < n := fun e => hb (hmin 2 (by omega) e)
    have : n = 2 := by omega
    rw [hnm, this]

/-- C6 at the buffer `repeatedNames`, where the tags of index `0` and `2` yield `a` and
`a-1` was accepted in between. -/
theorem repeated_name_suffix_witness :
    scan repeatedNames = .ok ([[97], [97, 45, 49], [97, 45, 50]], [24]) ∧
    rawNames repeatedNames (amtaOffsets repeatedNames) = .ok [[97], [97, 45, 49], [97]] ∧
    0 < 2 ∧ [[97], [97, 45, 49], [97]][0]? = some [97] ∧
    [[97], [97, 45, 49], [97]][2]? = some [97] ∧
    (([97] ++ [45] ++ to_string 1 ∉ [[97], [97, 45, 49], [97, 45, 50]].take 2 →
      [[97], [97, 45, 49], [97, 45, 50]][2]? = some ([97] ++ [45] ++ to_string 1)) ∧
    ([97] ++ [45] ++ to_string 1 ∈ [[97], [97, 45, 49], [97, 45, 50]].take 2 →
      [97] ++ [45] ++ to_string 2 ∉ [[97], [97, 45, 49], [97, 45, 50]].take 2 →
      [[97], [97, 45, 49], [97, 45, 50]][2]? = some ([97] ++ [45] ++ to_string 2))) :=
  ⟨by decide, by decide, by decide, by decide, by decide,
    repeated_name_suffix repeatedNames [[97], [97, 45, 49], [97, 45, 50]] [24]
      [[97], [97, 45, 49], [97]] 0 2 [97] (by decide) (by decide)
      (by decide) (by decide) (by decide)⟩

/-- C6 fails as stated: in `repeatedNames` the tags at offsets `0`, `8`, `16` yield the
raw names `a`, `a-1`, `a`; the tags at `0` and `16` are the two that yield `a`, and the
second of them is accepted as `a-2`, not as `a-1`. -/
theorem second_repeat_is_not_suffix_one :
    amtaOffsets repeatedNames = [0, 8, 16] ∧
    recoverName repeatedNames 0 = .ok (bytesOf "a") ∧
    recoverName repeatedNames 8 = .ok (bytesOf "a-1") ∧
    recoverName repeatedNames 16 = .ok (bytesOf "a") ∧
    scan repeatedNames = .ok ([bytesOf "a", bytesOf "a-1", bytesOf "a-2"], [24]) ∧
    bytesOf "a-2" ≠ bytesOf "a" ++ [45] ++ to_string 1 := by
  decide

/-! ### Two data tags and one name -/

/-- C8. When the scan records exactly the two offsets `a`, `b` and exactly one name `n`,
then `a < b` and the run writes exactly two segments, in this order: `n` with the bytes
`[a, b)`, of length `b - a`, and `extra_1` with the bytes from `b` to the end of the
buffer, of length `barsSize - b`. -/
theorem two_markers_one_name (fBuf : Buffer) (a b : Nat) (n : Name)
    (hscan : scan fBuf = .ok ([n], [a, b])) :
    a < b ∧
    processBuffer fBuf = .ok
      [⟨n, a, (b : Int) - a⟩, ⟨bytesOf "extra_1", b, (fBuf.length : Int) - b⟩] := by
  have hlt : a < b := by
    have := (scan_offsets_sorted hscan).1
    simpa using this
  refine ⟨hlt, ?_⟩
  have hpad : padNames [n] 2 = .ok [n, bytesOf "extra_1"] := by
    have e : bytesOf "extra_1" = extraPrefix ++ to_string 1 := by decide
    rw [e]
    simp [padNames, padLoop]
  unfold processBuffer
  rw [hscan]
  simp only [List.length_cons, List.length_nil, Nat.zero_add, Nat.reduceAdd, hpad]
  simp [writeLoop, segmentAt, segmentRange]

/-- C8 at `barExample`: offsets `100` and `340` in a 500-byte buffer and the one name
`bar` give `("bar", 100, 240)` and `("extra_1", 340, 160)`. -/
theorem two_markers_one_name_witness :
    barExample.length = 500 ∧
    scan barExample = .ok ([bytesOf "bar"], [100, 340]) ∧
    100 < 340 ∧
    processBuffer barExample = .ok
      [⟨bytesOf "bar", 100, 240⟩, ⟨bytesOf "extra_1", 340, 160⟩] :=
  ⟨by decide, by decide, two_markers_one_name barExample 100 340 (bytesOf "bar") (by decide)⟩

/-! ### The `extra_` padding -/

/-- The padding loop started at `i` on `audioNames` pushes
`(count + 2 - i - audioNames.size()) / 2` names, `extra_i`, `extra_(i+1)`, ... -/
theorem padLoop_eq (count : Nat) :
    ∀ (fuel i : Nat) (audioNames : List Name), 1 ≤ i →
      (count + 2 - i - audioNames.length) / 2 < fuel →
      padLoop count fuel i audioNames = .ok (audioNames ++
        (List.range ((count + 2 - i - audioNames.length) / 2)).map
          (fun t => extraPrefix ++ to_string (i + t))) := by
  intro fuel
  induction fuel with
  | zero => intro i audioNames _ h; omega
  | succ fuel ih =>
    intro i audioNames hi hf
    rw [padLoop]
    by_cases hc : i < count - audioNames.length + 1
    · rw [if_pos hc, ih (i + 1) _ (by omega) (by simp; omega)]
      have e : (count + 2 - i - audioNames.length) / 2 =
          (count + 2 - (i + 1) - (audioNames ++ [extraPrefix ++ to_string i]).length) / 2 + 1 := by
        simp; omega
      rw [e, List.range_succ_eq_map, List.map_cons, List.map_map]
      simp [Function.comp_def, Nat.add_assoc, Nat.add_comm 1]
    · rw [if_neg hc]
      have e : (count + 2 - i - audioNames.length) / 2 = 0 := by omega
      rw [e]; simp

/-- Lines 171-176 push only `(count - audioNames.size() + 1) / 2` names. -/
theorem padNames_eq (audioNames : List Name) (count : Nat) :
    padNames audioNames count = .ok (audioNames ++
      (List.range ((count - audioNames.length + 1) / 2)).map
        (fun t => extraPrefix ++ to_string (1 + t))) := by
  unfold padNames
  by_cases h : audioNames.length < count
  · rw [if_pos h, padLoop_eq count _ 1 _ le_rfl (by omega)]
    have e : (count + 2 - 1 - audioNames.length) / 2 = (count - audioNames.length + 1) / 2 := by
      omega
    rw [e]
  · rw [if_neg h]
    have e : (count - audioNames.length + 1) / 2 = 0 := by omega
    rw [e]; simp

/-- C2, the code at the buffer `twoUnnamed`: the scan records two offsets and no name,
the padding pushes `extra_1` only, so one name is missing and the write loop reads
`audioNames[1]` beyond the end of the vector. -/
theorem padding_stops_early :
    scan twoUnnamed = .ok ([], [0, 8]) ∧
    padNames [] 2 = .ok [bytesOf "extra_1"] ∧
    segmentAt [bytesOf "extra_1"] [0, 8] twoUnnamed.length 1 = .error .nameIndex ∧
    processBuffer twoUnnamed = .error .nameIndex := by
  decide

/-! ### One name in front of one data tag -/

theorem pushName_total (audioNames : List Name) (r : Name) :
    ∃ nm, pushName audioNames r = .ok (audioNames ++ [nm]) := by
  unfold pushName
  by_cases h : r ∈ audioNames
  · obtain ⟨n, hn, _⟩ := acceptName_of_mem h
    exact ⟨_, by rw [hn]⟩
  · exact ⟨r, by rw [acceptName_of_not_mem h]⟩

/-- The scan run over a list of offsets, from the raw names of its `AMTA` tags. -/
theorem scanList_of_raws (fBuf : Buffer) :
    ∀ (l : List Nat) (st : List Name × List Nat) (raws names : List Name),
      rawNames fBuf (l.filter (isAMTA fBuf)) = .ok raws → pushAll st.1 raws = .ok names →
      scanList fBuf l st = .ok (names, st.2 ++ l.filter (isBWAV fBuf)) := by
  intro l
  induction l with
  | nil =>
    intro st raws names h1 h2
    cases h1
    cases h2
    simp [scanList]
  | cons i rest ih =>
    intro st raws names h1 h2
    have hoff : (if isBWAV fBuf i = true then st.2 ++ [i] else st.2) ++
        rest.filter (isBWAV fBuf) = st.2 ++ (i :: rest).filter (isBWAV fBuf) := by
      by_cases hb : isBWAV fBuf i = true <;> simp [hb, List.filter_cons]
    by_cases ha : isAMTA fBuf i = true
    · rw [List.filter_cons, if_pos ha] at h1
      simp only [rawNames] at h1
      cases hr : recoverName fBuf i with
      | error e => rw [hr] at h1; cases h1
      | ok r =>
        rw [hr] at h1
        dsimp only at h1
        cases hrest : rawNames fBuf (rest.filter (isAMTA fBuf)) with
        | error e => rw [hrest] at h1; cases h1
        | ok rs =>
          rw [hrest] at h1
          cases h1
          simp only [pushAll] at h2
          cases hp : pushName st.1 r with
          | error e => rw [hp] at h2; cases h2
          | ok acc =>
            rw [hp] at h2
            dsimp only at h2
            simp only [scanList, scanBody, if_pos ha, hr, hp]
            rw [ih (acc, if isBWAV fBuf i = true then st.2 ++ [i] else st.2) rs names hrest h2, hoff]
    · rw [List.filter_cons, if_neg ha] at h1
      simp only [scanList, scanBody, if_neg ha]
      rw [ih (st.1, if isBWAV fBuf i = true then st.2 ++ [i] else st.2) raws names h1 h2, hoff]

theorem filter_eq_singleton {l : List Nat} {p : Nat → Bool} {a : Nat}
    (hs : l.Pairwise (· < ·)) (ha : a ∈ l) (hp : ∀ x ∈ l, (p x = true ↔ x = a)) :
    l.filter p = [a] := by
  have e : l.filter p = l.filter (· == a) := by
    apply List.filter_congr
    intro x hx
    by_cases h : x = a
    · simp [h, (hp a ha).mpr rfl]
    · have : p x = false := by
        cases hpx : p x with
        | false => rfl
        | true => exact absurd ((hp x hx).mp hpx) h
      simp [h, this]
  have hnd : l.Nodup := hs.imp (fun h => Nat.ne_of_lt h)
  rw [e, List.filter_beq, List.count_eq_one_of_mem hnd ha]
  rfl

theorem isBWAV_of_isAMTA {fBuf : Buffer} {i : Nat} (h : isAMTA fBuf i = true) :
    isBWAV fBuf i = false := by
  unfold isAMTA at h
  unfold isBWAV
  cases h0 : fBuf[i]? with
  | none => simp [h0] at h
  | some c =>
    simp only [h0, Bool.and_eq_true, beq_iff_eq, Option.some.injEq] at h
    simp [h.1.1.1]

theorem take_three_drop {l : List Nat} {k a b c : Nat} (ha : l[k]? = some a)
    (hb : l[k + 1]? = some b) (hc : l[k + 2]? = some c) :
    (l.drop k).take 3 = [a, b, c] := by
  apply List.ext_getElem?
  intro t
  rcases t with _ | _ | _ | t
  · rw [List.getElem?_take_of_lt (by omega), List.getElem?_drop]; simpa using ha
  · rw [List.getElem?_take_of_lt (by omega), List.getElem?_drop]; simpa using hb
  · rw [List.getElem?_take_of_lt (by omega), List.getElem?_drop]; simpa using hc
  · rw [List.getElem?_eq_none (by simp), List.getElem?_eq_none (by simp)]

theorem isTag_eq_false {fBuf : Buffer} {t : Nat} (h : isTag fBuf t = false) :
    isAMTA fBuf t = false ∧ isBWAV fBuf t = false := by
  unfold isTag at h
  exact Bool.or_eq_false_iff.mp h

/-- C9. Let a buffer hold `AMTA` at an aligned offset `m`, then filler bytes, then the
five bytes `00 'f' 'o' 'o' 00` ending right in front of `BWAV` at an aligned offset
`j`, then at least one more byte, with no tag at any other aligned offset. Then the
scan recovers exactly the one name `foo` and records exactly the one offset `j`, and
exactly one segment is written: `foo`, from `j`, of length `barsSize - j`. -/
theorem foo_example (fBuf : Buffer) (m j : Nat)
    (hm : m % 4 = 0) (hj : j % 4 = 0) (hmj : m + 4 + 5 ≤ j)
    (hamta : isAMTA fBuf m = true) (hbwav : isBWAV fBuf j = true)
    (hdata : j + 4 + 1 ≤ fBuf.length)
    (h0 : fBuf[j - 5]? = some 0) (h1 : fBuf[j - 4]? = some 102)
    (h2 : fBuf[j - 3]? = some 111) (h3 : fBuf[j - 2]? = some 111)
    (h4 : fBuf[j - 1]? = some 0)
    (hother : ∀ t, t % 4 = 0 → t ≠ m → t ≠ j → isTag fBuf t = false) :
    scan fBuf = .ok ([bytesOf "foo"], [j]) ∧
    processBuffer fBuf = .ok [⟨bytesOf "foo", j, (fBuf.length : Int) - j⟩] := by
  have hoffs : (scanOffsets fBuf.length).filter (isBWAV fBuf) = [j] := by
    refine filter_eq_singleton (scanOffsets_pairwise _) (mem_scanOffsets.mpr ⟨hj, by omega⟩) ?_
    intro x hx
    constructor
    · intro hb
      by_contra hne
      by_cases hxm : x = m
      · rw [hxm, isBWAV_of_isAMTA hamta] at hb; cases hb
      · rw [(isTag_eq_false (hother x (mem_scanOffsets.mp hx).1 hxm hne)).2] at hb; cases hb
    · intro h; rw [h]; exact hbwav
  have hamtas : (scanOffsets fBuf.length).filter (isAMTA fBuf) = [m] := by
    refine filter_eq_singleton (scanOffsets_pairwise _) (mem_scanOffsets.mpr ⟨hm, by omega⟩) ?_
    intro x hx
    constructor
    · intro ha
      by_contra hne
      by_cases hxj : x = j
      · rw [hxj] at ha
        rw [isBWAV_of_isAMTA ha] at hbwav; cases hbwav
      · rw [(isTag_eq_false (hother x (mem_scanOffsets.mp hx).1 hne hxj)).1] at ha; cases ha
    · intro h; rw [h]; exact hamta
  have hname : recoverName fBuf m = .ok (bytesOf "foo") := by
    have hr := recoverName_eq fBuf m j (j - 2) (j - 5) hm hj (by omega) (by omega)
      (by simp [isTag, hbwav])
      (fun t ht h5 h6 => hother t ht (by omega) (by omega)) (by omega)
      (fun t h5 h6 => by
        have e : t = j - 1 := by omega
        rw [e, List.getD_eq_getElem?_getD, h4]; rfl)
      (by omega) (by rw [List.getD_eq_getElem?_getD, h0]; rfl)
      (fun t h5 h6 => by
        have e : t = j - 4 ∨ t = j - 3 ∨ t = j - 2 := by omega
        rcases e with e | e | e <;> rw [e, List.getD_eq_getElem?_getD]
        · rw [h1]; decide
        · rw [h2]; decide
        · rw [h3]; decide)
    have e1 : j - 5 + 1 = j - 4 := by omega
    have e2 : j - 2 - (j - 5) = 3 := by omega
    have e3 : j - 4 + 1 = j - 3 := by omega
    have e4 : j - 4 + 2 = j - 2 := by omega
    rw [hr, e1, e2, take_three_drop h1 (by rw [e3]; exact h2) (by rw [e4]; exact h3)]
    rfl
  have hscan : scan fBuf = .ok ([bytesOf "foo"], [j]) := by
    rw [scan_eq_scanList]
    have := scanList_of_raws fBuf (scanOffsets fBuf.length) ([], []) [bytesOf "foo"]
      [bytesOf "foo"] (by rw [hamtas]; simp [rawNames, hname])
      (by simp [pushAll, pushName, acceptName])
    rw [this, hoffs]
    rfl
  refine ⟨hscan, ?_⟩
  unfold processBuffer
  rw [hscan]
  simp [padNames, writeLoop, segmentAt, segmentRange]

theorem isTag_of_length_le {fBuf : Buffer} {t : Nat} (h : fBuf.length ≤ t) :
    isTag fBuf t = false := by
  simp [isTag, isAMTA, isBWAV, List.getElem?_eq_none h]

/-- C9 at `fooExample`, with `AMTA` at `0` and `BWAV` at `12`. -/
theorem foo_example_witness :
    scan fooExample = .ok ([bytesOf "foo"], [12]) ∧
    processBuffer fooExample = .ok [⟨bytesOf "foo", 12, (fooExample.length : Int) - 12⟩] :=
  foo_example fooExample 0 12 (by decide) (by decide) (by decide) (by decide) (by decide)
    (by decide) (by decide) (by decide) (by decide) (by decide) (by decide)
    (by intro t h1 h2 h3
        by_cases ht : t < 18
        · interval_cases t <;> first | decide | omega
        · exact isTag_of_length_le (by simpa [fooExample, bytesOf] using ht))

/-! ### Padding between the name and the next tag -/

theorem insertBytes_length {fBuf : Buffer} {s : Nat} (extra : List Nat)
    (hs : s ≤ fBuf.length) : (insertBytes fBuf s extra).length = fBuf.length + extra.length := by
  simp [insertBytes]
  omega

theorem insertBytes_lt {fBuf : Buffer} {s t : Nat} (extra : List Nat)
    (hs : s ≤ fBuf.length) (ht : t < s) : (insertBytes fBuf s extra)[t]? = fBuf[t]? := by
  unfold insertBytes
  rw [List.append_assoc, List.getElem?_append_left (by simp; omega),
    List.getElem?_take_of_lt ht]

theorem insertBytes_mid {fBuf : Buffer} {s t : Nat} (extra : List Nat)
    (hs : s ≤ fBuf.length) (h1 : s ≤ t) (h2 : t < s + extra.length) :
    (insertBytes fBuf s extra)[t]? = extra[t - s]? := by
  unfold insertBytes
  have hl : (fBuf.take s).length = s := by simp; omega
  rw [List.append_assoc, List.getElem?_append_right (by omega), hl,
    List.getElem?_append_left (by omega)]

theorem insertBytes_ge {fBuf : Buffer} {s t : Nat} (extra : List Nat)
    (hs : s ≤ fBuf.length) (h1 : s + extra.length ≤ t) :
    (insertBytes fBuf s extra)[t]? = fBuf[t - extra.length]? := by
  unfold insertBytes
  have hl : (fBuf.take s ++ extra).length = s + extra.length := by simp; omega
  rw [List.getElem?_append_right (by omega), hl, List.getElem?_drop]
  congr 1
  omega

theorem isTag_last_byte {fBuf : Buffer} {t : Nat} (h : isTag fBuf t = true) :
    fBuf.getD (t + 3) 0 ≠ 0 := by
  rw [List.getD_eq_getElem?_getD]
  unfold isTag isAMTA isBWAV at h
  simp only [Bool.or_eq_true, Bool.and_eq_true, beq_iff_eq] at h
  rcases h with h | h <;> rw [h.2] <;> decide

theorem isTag_insertBytes_shift {fBuf : Buffer} {s t : Nat} (extra : List Nat)
    (hs : s ≤ fBuf.length) (ht : s ≤ t) :
    isTag (insertBytes fBuf s extra) (t + extra.length) = isTag fBuf t := by
  have e : ∀ k, (insertBytes fBuf s extra)[t + extra.length + k]? = fBuf[t + k]? := by
    intro k
    rw [insertBytes_ge extra hs (by omega)]
    congr 1
    omega
  unfold isTag isAMTA isBWAV
  rw [e 1, e 2, e 3]
  have e0 := e 0
  simp only [Nat.add_zero] at e0
  rw [e0]

theorem isTag_insertBytes_below {fBuf : Buffer} {s t : Nat} (extra : List Nat)
    (hs : s ≤ fBuf.length) (ht : t + 3 < s) :
    isTag (insertBytes fBuf s extra) t = isTag fBuf t := by
  unfold isTag isAMTA isBWAV
  rw [insertBytes_lt extra hs (by omega : t < s), insertBytes_lt extra hs (by omega : t + 1 < s),
    insertBytes_lt extra hs (by omega : t + 2 < s), insertBytes_lt extra hs ht]

/-- C10, as the code has it. Let `m` be an aligned offset (a metadata marker), `j` the
next tag after it, `p` the last non-null byte before `j` and `q` the closest null byte
below `p`, so that the name is the bytes `q + 1 .. p` and its null terminator is at
`p + 1 < j`. Putting `4 * c` null bytes at a position `s` behind the terminator and not
behind `j`, which moves the tag to the aligned offset `j + 4 * c`, does not change the
name recovered at `m`. -/
theorem null_padding_keeps_name (fBuf : Buffer) (m j p q s c : Nat)
    (hm : m % 4 = 0) (hj : j % 4 = 0) (hmj : m + 4 ≤ j) (hjb : j + 4 < fBuf.length)
    (htag : isTag fBuf j = true)
    (hfirst : ∀ t, t % 4 = 0 → m + 4 ≤ t → t < j → isTag fBuf t = false)
    (hp : p < j) (hpz : ∀ t, p < t → t < j → fBuf.getD t 0 = 0)
    (hq : q < p) (hqz : fBuf.getD q 0 = 0) (hrun : ∀ t, q < t → t ≤ p → fBuf.getD t 0 ≠ 0)
    (hs1 : p + 1 < s) (hs2 : s ≤ j) :
    recoverName fBuf m = .ok ((fBuf.drop (q + 1)).take (p - q)) ∧
    isTag (insertBytes fBuf s (List.replicate (4 * c) 0)) (j + 4 * c) = true ∧
    recoverName (insertBytes fBuf s (List.replicate (4 * c) 0)) m = recoverName fBuf m := by
  have hs : s ≤ fBuf.length := by omega
  have hlen : (List.replicate (4 * c) (0 : Nat)).length = 4 * c := List.length_replicate _ _
  have hold := recoverName_eq fBuf m j p q hm hj hmj hjb htag hfirst hp hpz hq hqz hrun
  have hget_lt : ∀ t, t < s →
      (insertBytes fBuf s (List.replicate (4 * c) 0)).getD t 0 = fBuf.getD t 0 := by
    intro t ht
    rw [List.getD_eq_getElem?_getD, List.getD_eq_getElem?_getD, insertBytes_lt _ hs ht]
  have hnull : ∀ t, p < t → t < j + 4 * c →
      (insertBytes fBuf s (List.replicate (4 * c) 0)).getD t 0 = 0 := by
    intro t h1 h2
    by_cases ha : t < s
    · rw [hget_lt t ha]; exact hpz t h1 (by omega)
    · by_cases hb : t < s + 4 * c
      · rw [List.getD_eq_getElem?_getD, insertBytes_mid _ hs (by omega) (by rw [hlen]; exact hb),
          List.getElem?_replicate, if_pos (by omega)]
        rfl
      · rw [List.getD_eq_getElem?_getD, insertBytes_ge _ hs (by rw [hlen]; omega), hlen,
          ← List.getD_eq_getElem?_getD]
        exact hpz _ (by omega) (by omega)
  have htag' : isTag (insertBytes fBuf s (List.replicate (4 * c) 0)) (j + 4 * c) = true := by
    have := isTag_insertBytes_shift (List.replicate (4 * c) 0) hs hs2
    rw [hlen] at this
    rw [this]; exact htag
  have hnew := recoverName_eq (insertBytes fBuf s (List.replicate (4 * c) 0)) m (j + 4 * c) p q
    hm (by omega) (by omega)
    (by rw [insertBytes_length _ hs, hlen]; omega) htag'
    (by
      intro t h1 h2 h3
      by_cases hc : t + 3 ≤ p
      · rw [isTag_insertBytes_below _ hs (by omega)]
        exact hfirst t h1 h2 (by omega)
      · by_contra hne
        have h4 : isTag (insertBytes fBuf s (List.replicate (4 * c) 0)) t = true := by
          simpa using hne
        exact isTag_last_byte h4 (hnull (t + 3) (by omega) (by omega)))
    (by omega) hnull hq
    (by rw [hget_lt q (by omega)]; exact hqz)
    (by intro t h1 h2; rw [hget_lt t (by omega)]; exact hrun t h1 h2)
  refine ⟨hold, htag', ?_⟩
  rw [hnew, hold]
  congr 1
  apply List.ext_getElem?
  intro t
  by_cases ht : t < p - q
  · rw [List.getElem?_take_of_lt ht, List.getElem?_take_of_lt ht, List.getElem?_drop,
      List.getElem?_drop, insertBytes_lt _ hs (by omega)]
  · rw [List.getElem?_eq_none (by simp; omega), List.getElem?_eq_none (by simp; omega)]

/-- C10 as the code has it, at `fooPadded`: four null bytes put at position `9`. -/
theorem null_padding_keeps_name_witness :
    recoverName fooPadded 0 = .ok ((fooPadded.drop (4 + 1)).take (7 - 4)) ∧
    isTag (insertBytes fooPadded 9 (List.replicate (4 * 1) 0)) (12 + 4 * 1) = true ∧
    recoverName (insertBytes fooPadded 9 (List.replicate (4 * 1) 0)) 0 =
      recoverName fooPadded 0 :=
  null_padding_keeps_name fooPadded 0 12 7 4 9 1 (by decide) (by decide) (by decide)
    (by decide) (by decide)
    (by intro t h1 h2 h3
        have e : t = 4 ∨ t = 8 := by omega
        rcases e with rfl | rfl <;> decide)
    (by decide)
    (by intro t h1 h2; interval_cases t <;> decide)
    (by decide) (by decide)
    (by intro t h1 h2; interval_cases t <;> decide)
    (by decide) (by decide)

/-- C10 fails as stated: in `fooPadded` the tag at `0` has its next tag at `12`, the name
`foo` at `5 .. 7` and the null terminator at `8`. Four non-null bytes `x` put at
position `9`, behind the terminator and in front of the tag, which moves to the aligned
offset `16`, change the recovered name from `foo` to `xxxx`. -/
theorem nonnull_padding_changes_name :
    isAMTA fooPadded 0 = true ∧ isTag fooPadded 12 = true ∧
    isTag fooPadded 4 = false ∧ isTag fooPadded 8 = false ∧
    fooPadded[8]? = some 0 ∧
    recoverName fooPadded 0 = .ok (bytesOf "foo") ∧
    isTag (insertBytes fooPadded 9 (bytesOf "xxxx")) 16 = true ∧
    isTag (insertBytes fooPadded 9 (bytesOf "xxxx")) 4 = false ∧
    isTag (insertBytes fooPadded 9 (bytesOf "xxxx")) 8 = false ∧
    isTag (insertBytes fooPadded 9 (bytesOf "xxxx")) 12 = false ∧
    recoverName (insertBytes fooPadded 9 (bytesOf "xxxx")) 0 = .ok (bytesOf "xxxx") ∧
    recoverName (insertBytes fooPadded 9 (bytesOf "xxxx")) 0 ≠ recoverName fooPadded 0 := by
  decide

/-! ### The errors a run can end with

The fuel of the embedded loops never runs out and `startOffsets` is never read out of
range: a run ends normally, or with a read outside `fBuf`, an unassigned `nameStart` or
a read outside `audioNames`. -/

theorem backScan_error (fBuf : Buffer) :
    ∀ (k : Nat) (found : Bool) (ns : Option Nat) (nl : Nat) (e : ScanError),
      backScan fBuf k found ns nl = .error e → e = .readOutOfBounds := by
  intro k
  induction k with
  | zero => intro found ns nl e h; simp only [backScan] at h; cases h; rfl
  | succ k ih =>
    intro found ns nl e h
    rw [backScan] at h
    cases hc : fBuf[k]? with
    | none => rw [hc] at h; cases h; rfl
    | some c =>
      rw [hc] at h
      dsimp only at h
      split at h
      · split at h
        · exact ih _ _ _ _ h
        · exact ih _ _ _ _ h
      · cases h

theorem nameScan_error (fBuf : Buffer) :
    ∀ (fuel j : Nat) (e : ScanError), fBuf.length - j < fuel →
      nameScan fBuf fuel j = .error e → e = .readOutOfBounds := by
  intro fuel
  induction fuel with
  | zero => intro j e hf _; omega
  | succ fuel ih =>
    intro j e hf h
    rw [nameScan] at h
    split at h
    · split at h
      · exact backScan_error fBuf _ _ _ _ _ h
      · exact ih (j + 4) e (by omega) h
    · cases h

/-- The forward loop finds no tag: `nameStart` stays unassigned. -/
theorem nameScan_none (fBuf : Buffer) :
    ∀ (fuel j : Nat), fBuf.length - j < fuel →
      (∀ d, j + 4 * d + 4 < fBuf.length → isTag fBuf (j + 4 * d) = false) →
      nameScan fBuf fuel j = .ok (none, 0) := by
  intro fuel
  induction fuel with
  | zero => intro j hf _; omega
  | succ fuel ih =>
    intro j hf hno
    rw [nameScan]
    by_cases hb : j + 4 < fBuf.length
    · have h0 := hno 0 (by omega)
      rw [Nat.mul_zero, Nat.add_zero] at h0
      rw [if_pos hb, h0]
      simp only [Bool.false_eq_true, if_false]
      refine ih (j + 4) (by omega) ?_
      intro d hd
      have e : j + 4 + 4 * d = j + 4 * (d + 1) := by omega
      rw [e]
      exact hno (d + 1) (by omega)
    · rw [if_neg hb]

theorem recoverName_error {fBuf : Buffer} {i : Nat} {e : ScanError}
    (h : recoverName fBuf i = .error e) : e = .readOutOfBounds ∨ e = .uninitNameStart := by
  unfold recoverName at h
  split at h
  · next e' he =>
    cases h
    exact Or.inl (nameScan_error fBuf _ _ _ (by omega) he)
  · cases h; exact Or.inr rfl
  · cases h

theorem scanList_error (fBuf : Buffer) :
    ∀ (l : List Nat) (st : List Name × List Nat) (e : ScanError),
      scanList fBuf l st = .error e → e = .readOutOfBounds ∨ e = .uninitNameStart := by
  intro l
  induction l with
  | nil => intro st e h; cases h
  | cons i rest ih =>
    intro st e h
    simp only [scanList] at h
    cases hb : scanBody fBuf i st with
    | ok st2 => rw [hb] at h; exact ih st2 e h
    | error e2 =>
      rw [hb] at h
      cases h
      unfold scanBody at hb
      dsimp only at hb
      split at hb
      · cases hr : recoverName fBuf i with
        | error e3 => rw [hr] at hb; cases hb; exact recoverName_error hr
        | ok r =>
          rw [hr] at hb
          dsimp only at hb
          obtain ⟨nm, hnm⟩ := pushName_total st.1 r
          rw [hnm] at hb
          cases hb
      · cases hb

theorem writeLoop_error {names : List Name} {offs : List Nat} {size : Nat} :
    ∀ (n i : Nat) (e : ScanError), i + n ≤ offs.length →
      writeLoop names offs size n i = .error e → e = .nameIndex := by
  intro n
  induction n with
  | zero => intro i e _ h; cases h
  | succ n ih =>
    intro i e hi h
    simp only [writeLoop] at h
    cases hs : segmentAt names offs size i with
    | error e2 =>
      rw [hs] at h
      cases h
      unfold segmentAt at hs
      rw [segmentRange_eq (by omega)] at hs
      dsimp only at hs
      split at hs
      · cases hs; rfl
      · cases hs
    | ok seg =>
      rw [hs] at h
      dsimp only at h
      cases hw : writeLoop names offs size n (i + 1) with
      | error e2 => rw [hw] at h; cases h; exact ih (i + 1) e (by omega) hw
      | ok rest => rw [hw] at h; cases h

theorem processBuffer_error {fBuf : Buffer} {e : ScanError}
    (h : processBuffer fBuf = .error e) :
    e = .readOutOfBounds ∨ e = .uninitNameStart ∨ e = .nameIndex := by
  unfold processBuffer at h
  cases hs : scan fBuf with
  | error e2 =>
    rw [hs] at h
    cases h
    rw [scan_eq_scanList] at hs
    rcases scanList_error fBuf _ _ _ hs with h1 | h1
    · exact Or.inl h1
    · exact Or.inr (Or.inl h1)
  | ok st =>
    obtain ⟨names, offs⟩ := st
    rw [hs] at h
    dsimp only at h
    rw [padNames_eq] at h
    dsimp only at h
    exact Or.inr (Or.inr (writeLoop_error _ _ _ (by omega) h))

/-! ### Names and offsets are paired by index -/

theorem writeLoop_total {names : List Name} {offs : List Nat} {size : Nat}
    (hlen : offs.length ≤ names.length) :
    ∀ (n i : Nat), i + n ≤ offs.length →
      ∃ segs, writeLoop names offs size n i = .ok segs := by
  intro n
  induction n with
  | zero => intro i _; exact ⟨[], rfl⟩
  | succ n ih =>
    intro i hi
    obtain ⟨rest, hrest⟩ := ih (i + 1) (by omega)
    have hn : i < names.length := by omega
    simp only [writeLoop, segmentAt, segmentRange_eq (by omega : i < offs.length),
      List.getElem?_eq_getElem hn, hrest]
    exact ⟨_, rfl⟩

/-- C11. When the scan recovers at least as many names as it records offsets, the run
completes and writes exactly one segment per recorded offset: segment `i` has the
accepted name of index `i` (in the order in which the `AMTA` tags were scanned) and the
offset of index `i` (in the order in which the `BWAV` tags were scanned), wherever the
tags lie, and the accepted names from index `startOffsets.size()` on are in no segment. -/
theorem names_paired_by_index (fBuf : Buffer) (names : List Name) (offs : List Nat)
    (hscan : scan fBuf = .ok (names, offs)) (hlen : offs.length ≤ names.length) :
    ∃ segs, processBuffer fBuf = .ok segs ∧
      segs.length = offs.length ∧
      (∀ i, i < offs.length → ∃ seg, segs[i]? = some seg ∧
        names[i]? = some seg.name ∧ offs[i]? = some seg.start) ∧
      segs.map (fun s => s.name) = names.take offs.length ∧
      segs.map (fun s => s.start) = offs := by
  have hpad : padNames names offs.length = .ok names := by
    unfold padNames
    rw [if_neg (by omega)]
  obtain ⟨segs, hsegs⟩ := @writeLoop_total names offs fBuf.length hlen
    offs.length 0 (by omega)
  have hp : processBuffer fBuf = .ok segs := by
    unfold processBuffer
    rw [hscan]
    dsimp only
    rw [hpad]
    exact hsegs
  obtain ⟨hl, hidx⟩ := writeLoop_ok _ _ _ hsegs
  have hall : ∀ i, i < offs.length → ∃ seg, segs[i]? = some seg ∧
      names[i]? = some seg.name ∧ offs[i]? = some seg.start := by
    intro i hi
    obtain ⟨seg, h1, h2⟩ := hidx i hi
    rw [Nat.zero_add] at h2
    obtain ⟨h3, h4⟩ := segmentAt_ok h2
    refine ⟨seg, h1, h4, ?_⟩
    rw [segmentRange_eq hi] at h3
    have := congrArg Prod.fst (Except.ok.inj h3)
    simp only at this
    rw [List.getElem?_eq_getElem hi, ← this, List.getD_eq_getElem _ _ hi]
  refine ⟨segs, hp, hl, hall, ?_, ?_⟩
  · apply List.ext_getElem?
    intro i
    by_cases hi : i < offs.length
    · obtain ⟨seg, h1, h2, _⟩ := hall i hi
      rw [List.getElem?_map, h1, List.getElem?_take_of_lt hi, h2]
      rfl
    · rw [List.getElem?_eq_none (by simp; omega), List.getElem?_eq_none (by simp; omega)]
  · apply List.ext_getElem?
    intro i
    by_cases hi : i < offs.length
    · obtain ⟨seg, h1, _, h3⟩ := hall i hi
      rw [List.getElem?_map, h1, h3]
      rfl
    · rw [List.getElem?_eq_none (by simp; omega), List.getElem?_eq_none (by omega)]

/-- C11 at `twoNamesOneTag`: the names `a`, `b` and the one offset `16`; the segment is
named `a`, although the tag in front of the data is the one that yields `b`. -/
theorem names_paired_by_index_witness :
    scan twoNamesOneTag = .ok ([bytesOf "a", bytesOf "b"], [16]) ∧
    ∃ segs, processBuffer twoNamesOneTag = .ok segs ∧
      segs.length = [16].length ∧
      (∀ i, i < [16].length → ∃ seg, segs[i]? = some seg ∧
        [bytesOf "a", bytesOf "b"][i]? = some seg.name ∧ [16][i]? = some seg.start) ∧
      segs.map (fun s => s.name) = [bytesOf "a", bytesOf "b"].take [16].length ∧
      segs.map (fun s => s.start) = [16] :=
  ⟨by decide,
    names_paired_by_index twoNamesOneTag [bytesOf "a", bytesOf "b"] [16] (by decide)
      (by decide)⟩

/-! ### Buffers without a tag -/

/-- C16. When no aligned offset of the buffer holds a tag, which is the case of every
buffer shorter than 4 bytes and of the empty buffer, the scan ends with no name and no
offset, and the run writes no segment. -/
theorem no_marker_no_segment (fBuf : Buffer)
    (hno : ∀ t, t % 4 = 0 → t + 4 ≤ fBuf.length → isTag fBuf t = false) :
    scan fBuf = .ok ([], []) ∧ processBuffer fBuf = .ok [] := by
  have hb : (scanOffsets fBuf.length).filter (isBWAV fBuf) = [] := by
    rw [List.filter_eq_nil_iff]
    intro x hx
    have := mem_scanOffsets.mp hx
    rw [(isTag_eq_false (hno x this.1 (by omega))).2]
    simp
  have ha : (scanOffsets fBuf.length).filter (isAMTA fBuf) = [] := by
    rw [List.filter_eq_nil_iff]
    intro x hx
    have := mem_scanOffsets.mp hx
    rw [(isTag_eq_false (hno x this.1 (by omega))).1]
    simp
  have hscan : scan fBuf = .ok ([], []) := by
    rw [scan_eq_scanList, scanList_of_raws fBuf (scanOffsets fBuf.length) ([], []) [] []
      (by rw [ha]; rfl) rfl, hb]
    rfl
  refine ⟨hscan, ?_⟩
  unfold processBuffer
  rw [hscan]
  rfl

/-- C16 at the empty buffer, at a 3-byte buffer and at a 9-byte buffer whose tag-like
bytes `BWAV` start at the unaligned offset `1`. -/
theorem no_marker_no_segment_witness :
    (scan [] = .ok ([], []) ∧ processBuffer [] = .ok []) ∧
    (scan [66, 87, 65] = .ok ([], []) ∧ processBuffer [66, 87, 65] = .ok []) ∧
    (scan ([0] ++ bytesOf "BWAV" ++ [0, 0, 0, 0]) = .ok ([], []) ∧
      processBuffer ([0] ++ bytesOf "BWAV" ++ [0, 0, 0, 0]) = .ok []) :=
  ⟨no_marker_no_segment [] (by intro t _ h; simp at h),
    no_marker_no_segment [66, 87, 65] (by intro t _ h; simp at h),
    no_marker_no_segment ([0] ++ bytesOf "BWAV" ++ [0, 0, 0, 0])
      (by intro t h1 h2
          have h3 : t + 4 ≤ 9 := h2
          have e : t = 0 ∨ t = 4 := by omega
          rcases e with rfl | rfl <;> decide)⟩

/-! ### The accepted names stay pairwise different -/

theorem acceptName_fresh {audioNames : List Name} {r nm : Name}
    (h : acceptName audioNames r = .ok nm) : nm ∉ audioNames := by
  by_cases hm : r ∈ audioNames
  · obtain ⟨n, hn, _, _, hfree, _⟩ := acceptName_of_mem hm
    rw [hn] at h
    cases h
    exact hfree
  · rw [acceptName_of_not_mem hm] at h
    cases h
    exact hm

theorem pushAll_nodup :
    ∀ (raws acc : List Name), acc.Nodup →
      ∃ names, pushAll acc raws = .ok names ∧ names.Nodup ∧
        names.length = acc.length + raws.length ∧
        ∀ k, pushAll acc (raws.take k) = .ok (names.take (acc.length + k)) := by
  intro raws
  induction raws with
  | nil =>
    intro acc hnd
    exact ⟨acc, rfl, hnd, rfl, fun k => by simp [pushAll]⟩
  | cons r rest ih =>
    intro acc hnd
    cases hn : acceptName acc r with
    | error e =>
      by_cases hm : r ∈ acc
      · obtain ⟨n, h1, _⟩ := acceptName_of_mem hm
        rw [h1] at hn; cases hn
      · rw [acceptName_of_not_mem hm] at hn; cases hn
    | ok nm =>
      have hnd' : (acc ++ [nm]).Nodup := by
        rw [List.nodup_append]
        refine ⟨hnd, List.nodup_singleton nm, ?_⟩
        intro x hx hy
        rw [List.mem_singleton] at hy
        exact acceptName_fresh hn (hy ▸ hx)
      obtain ⟨names, h1, h2, h3, h4⟩ := ih (acc ++ [nm]) hnd'
      have hlen : (acc ++ [nm]).length = acc.length + 1 := by simp
      rw [hlen] at h3 h4
      have hstep : pushAll acc (r :: rest) = .ok names := by
        simp only [pushAll, pushName, hn]
        exact h1
      have hpre := (pushAll_spec (r :: rest) acc names hstep).2.1
      refine ⟨names, hstep, h2, by simp; omega, ?_⟩
      intro k
      cases k with
      | zero => simp [pushAll, hpre]
      | succ k =>
        simp only [List.take_succ_cons, pushAll, pushName, hn]
        rw [h4 k]
        congr 2
        omega

/-- C17. For every sequence of raw names handled in order, starting from the empty list,
the pushes all succeed, the list of accepted names has as many entries as raw names
were handled, and it is pairwise distinct; the same holds after every step, the list
after `k` steps being the first `k` accepted names. -/
theorem accepted_names_distinct (raws : List Name) :
    ∃ names, pushAll [] raws = .ok names ∧
      names.length = raws.length ∧ names.Nodup ∧
      ∀ k, pushAll [] (raws.take k) = .ok (names.take k) ∧
        (names.take k).Nodup ∧ (names.take k).length = (raws.take k).length := by
  obtain ⟨names, h1, h2, h3, h4⟩ := pushAll_nodup raws [] List.nodup_nil
  simp only [List.length_nil, Nat.zero_add] at h3 h4
  refine ⟨names, h1, h3, h2, ?_⟩
  intro k
  exact ⟨h4 k, h2.sublist (List.take_sublist k names), by simp [h3]⟩

/-- C20. For every list of accepted names, pairwise distinct or not, and every raw name
`r` in it, the probing loop ends (the fuel `audioNames.length + 1` is enough) with the
least `n` for which `r-n` is not in the list, and `1 <= n <= audioNames.length`: the
strings `r`, `r-1`, ..., `r-(n-1)` are `n` different members of the list. -/
theorem probe_terminates (audioNames : List Name) (r : Name) (hr : r ∈ audioNames) :
    ∃ n, probe audioNames r (audioNames.length + 1) 1 = .ok n ∧
      1 ≤ n ∧ n ≤ audioNames.length ∧
      r ++ [45] ++ to_string n ∉ audioNames ∧
      ∀ k, 1 ≤ k → k < n → r ++ [45] ++ to_string k ∈ audioNames := by
  obtain ⟨k, hk1, hk2, hk3⟩ := exists_free_suffix audioNames r
  obtain ⟨n, hn⟩ := probe_total audioNames r (audioNames.length + 1) 1 k hk1 hk2 hk3
  obtain ⟨h1, _, h3, h4⟩ := probe_spec audioNames r _ _ _ hn
  refine ⟨n, hn, h1, ?_, h3, h4⟩
  -- `r` and `r-1`, ..., `r-(n-1)` are `n` different members
  let l : List Name := r :: (List.range (n - 1)).map (fun t => suffixed r (t + 1))
  have hl : l.Nodup := by
    rw [List.nodup_cons]
    constructor
    · intro hmem
      rw [List.mem_map] at hmem
      obtain ⟨t, _, ht⟩ := hmem
      have := congrArg List.length ht
      simp [suffixed] at this
    · refine List.Nodup.map ?_ (List.nodup_range _)
      intro a b h
      have := suffixed_injective r h
      omega
  have hsub : l ⊆ audioNames := by
    intro x hx
    rw [List.mem_cons] at hx
    rcases hx with rfl | hx
    · exact hr
    · rw [List.mem_map] at hx
      obtain ⟨t, ht, rfl⟩ := hx
      have := List.mem_range.mp ht
      exact h4 (t + 1) (by omega) (by omega)
  have hle := (List.subperm_of_subset hl hsub).length_le
  simp [l] at hle
  omega

/-- C20 at the list `a`, `a-1`, `b` and the raw name `a`: the loop ends with `n = 2`. -/
theorem probe_terminates_witness :
    [[97], [97, 45, 49], [98]].Nodup ∧
    probe [[97], [97, 45, 49], [98]] [97] 4 1 = .ok 2 ∧
    ∃ n, probe [[97], [97, 45, 49], [98]] [97] ([[97], [97, 45, 49], [98]].length + 1) 1
        = .ok n ∧
      1 ≤ n ∧ n ≤ [[97], [97, 45, 49], [98]].length ∧
      [97] ++ [45] ++ to_string n ∉ [[97], [97, 45, 49], [98]] ∧
      ∀ k, 1 ≤ k → k < n → [97] ++ [45] ++ to_string k ∈ [[97], [97, 45, 49], [98]] :=
  ⟨by decide, by decide, probe_terminates [[97], [97, 45, 49], [98]] [97] (by decide)⟩

/-! ### Every slice starts with the data tag -/

theorem segmentRange_ok_lt {offs : List Nat} {size i : Nat} {r : Nat × Int}
    (h : segmentRange offs size i = .ok r) : i < offs.length := by
  by_contra hc
  unfold segmentRange at h
  rw [List.getElem?_eq_none (by omega)] at h
  cases h

/-- C19. After a scan, every pair `(offset, writeSize)` computed by the write loop, and
so every segment of a completed run, has an offset that is a multiple of `4` and holds
the four bytes `BWAV`, and a length of at least `4`, more than `4` for the last one:
every slice begins with the whole data tag. -/
theorem segments_start_with_tag (fBuf : Buffer) (names : List Name) (offs : List Nat)
    (hscan : scan fBuf = .ok (names, offs)) :
    (∀ i r, segmentRange offs fBuf.length i = .ok r →
      r.1 % 4 = 0 ∧ isBWAV fBuf r.1 = true ∧ 4 ≤ r.2 ∧
        (r.1 : Int) + 4 ≤ fBuf.length ∧ (i + 1 = offs.length → 4 < r.2)) ∧
    (∀ segs, processBuffer fBuf = .ok segs →
      (∀ seg ∈ segs, seg.start % 4 = 0 ∧ isBWAV fBuf seg.start = true ∧ 4 ≤ seg.length) ∧
      ∀ last, segs.getLast? = some last → 4 < last.length) := by
  obtain ⟨hsorted, hmem⟩ := scan_offsets_sorted hscan
  have hrange : ∀ i r, segmentRange offs fBuf.length i = .ok r →
      r.1 % 4 = 0 ∧ isBWAV fBuf r.1 = true ∧ 4 ≤ r.2 ∧
        (r.1 : Int) + 4 ≤ fBuf.length ∧ (i + 1 = offs.length → 4 < r.2) := by
    intro i r hr
    have hi := segmentRange_ok_lt hr
    rw [segmentRange_eq hi] at hr
    cases hr
    have h0 := hmem (offs.getD i 0) (by rw [List.getD_eq_getElem _ _ hi]; exact List.getElem_mem hi)
    refine ⟨h0.1, h0.2.2, ?_, by have := h0.2.1; omega, ?_⟩
    · by_cases hl : i + 1 = offs.length
      · simp only [hl, if_true]; omega
      · simp only [hl, if_false]
        have hi1 : i + 1 < offs.length := by omega
        have h1 := hmem (offs.getD (i + 1) 0)
          (by rw [List.getD_eq_getElem _ _ hi1]; exact List.getElem_mem hi1)
        have h2 := getD_lt_of_sorted hsorted (by omega : i < i + 1) hi1
        omega
    · intro hl
      simp only [hl, if_true]; omega
  refine ⟨hrange, ?_⟩
  intro segs hp
  unfold processBuffer at hp
  rw [hscan] at hp
  dsimp only at hp
  cases hpad : padNames names offs.length with
  | error e => rw [hpad] at hp; cases hp
  | ok padded =>
    rw [hpad] at hp
    dsimp only at hp
    obtain ⟨hlen, hsegs⟩ := writeLoop_ok _ _ _ hp
    have hat : ∀ t seg, segs[t]? = some seg →
        t < offs.length ∧ segmentRange offs fBuf.length t = .ok (seg.start, seg.length) := by
      intro t seg ht
      have htl : t < offs.length := by
        by_contra hc
        rw [List.getElem?_eq_none (by omega)] at ht
        cases ht
      obtain ⟨seg', h1, h2⟩ := hsegs t htl
      rw [ht] at h1
      cases h1
      rw [Nat.zero_add] at h2
      exact ⟨htl, (segmentAt_ok h2).1⟩
    constructor
    · intro seg hseg
      obtain ⟨t, ht⟩ := List.mem_iff_getElem?.mp hseg
      obtain ⟨_, hr⟩ := hat t seg ht
      obtain ⟨a, b, c, _, _⟩ := hrange t _ hr
      exact ⟨a, b, c⟩
    · intro last hlast
      rw [List.getLast?_eq_getElem?] at hlast
      obtain ⟨htl, hr⟩ := hat _ last hlast
      exact (hrange _ _ hr).2.2.2.2 (by omega)

/-- C19 at `twoSegments`, whose segments start at `8` and `16`. -/
theorem segments_start_with_tag_witness :
    processBuffer twoSegments = .ok [⟨bytesOf "a", 8, 8⟩, ⟨bytesOf "extra_1", 16, 9⟩] ∧
    (∀ i r, segmentRange [8, 16] twoSegments.length i = .ok r →
      r.1 % 4 = 0 ∧ isBWAV twoSegments r.1 = true ∧ 4 ≤ r.2 ∧
        (r.1 : Int) + 4 ≤ twoSegments.length ∧ (i + 1 = [8, 16].length → 4 < r.2)) ∧
    (∀ segs, processBuffer twoSegments = .ok segs →
      (∀ seg ∈ segs, seg.start % 4 = 0 ∧ isBWAV twoSegments seg.start = true ∧
        4 ≤ seg.length) ∧
      ∀ last, segs.getLast? = some last → 4 < last.length) :=
  ⟨by decide, segments_start_with_tag twoSegments [bytesOf "a"] [8, 16] (by decide)⟩

/-! ### Inputs on which the code leaves the claimed behaviour -/

/-- C12, the code at the buffer `extraClash`: the one recovered name is `extra_1`, two
offsets are recorded, the padding pushes `extra_1` without looking at the names that
are there, and both segments are written under the name `extra_1`. -/
theorem placeholder_repeats_name :
    scan extraClash = .ok ([bytesOf "extra_1"], [12, 20]) ∧
    padNames [bytesOf "extra_1"] 2 = .ok [bytesOf "extra_1", bytesOf "extra_1"] ∧
    processBuffer extraClash =
      .ok [⟨bytesOf "extra_1", 12, 8⟩, ⟨bytesOf "extra_1", 20, 9⟩] := by
  decide

/-- C13, the code at the buffer `noNullBefore`: for the tag at `0` the next tag is at
`8`, the backward loop starts at `7`, meets no null byte down to index `0` and goes on
to read `fBuf[-1]`; no name-not-found result is produced. -/
theorem backward_scan_leaves_buffer :
    isAMTA noNullBefore 0 = true ∧ isTag noNullBefore 4 = false ∧
    isTag noNullBefore 8 = true ∧
    backScanReads noNullBefore 8 false = [7, 6, 5, 4, 3, 2, 1, 0, -1] ∧
    backScan noNullBefore 8 false none 0 = .error .readOutOfBounds ∧
    recoverName noNullBefore 0 = .error .readOutOfBounds ∧
    processBuffer noNullBefore = .error .readOutOfBounds := by
  decide

/-- C14, the code at the buffer `noNextTag`: the tag `AMTA` at `8` is detected, the
forward loop from `12` ends without a tag, so `nameLen` is `0` and `nameStart` was
never assigned when the name is built from them; no placeholder name is made up. -/
theorem missing_next_tag_has_no_fallback :
    isAMTA noNextTag 8 = true ∧ 8 + 4 < noNextTag.length ∧
    isTag noNextTag 12 = false ∧ ¬ (16 + 4 < noNextTag.length) ∧
    nameScan noNextTag (noNextTag.length + 1) (8 + 4) = .ok (none, 0) ∧
    recoverName noNextTag 8 = .error .uninitNameStart ∧
    processBuffer noNextTag = .error .uninitNameStart := by
  decide

/-! ### The indices read by the backward loop -/

theorem backScanReads_ne_nil (fBuf : Buffer) (k : Nat) (found : Bool) :
    backScanReads fBuf k found ≠ [] := by
  cases k <;> simp [backScanReads]

theorem getLast?_cons_of_ne_nil {α : Type} (a : α) {l : List α} (h : l ≠ []) :
    (a :: l).getLast? = l.getLast? := by
  cases l with
  | nil => exact absurd rfl h
  | cons b l => rw [List.getLast?_cons_cons]

/-- The backward loop ends normally exactly when all its reads are inside the buffer. -/
theorem backScan_ok_iff (fBuf : Buffer) :
    ∀ (k : Nat) (found : Bool) (ns : Option Nat) (nl : Nat),
      (∃ r, backScan fBuf k found ns nl = .ok r) ↔
        ∀ x ∈ backScanReads fBuf k found, 0 ≤ x ∧ x < (fBuf.length : Int) := by
  intro k
  induction k with
  | zero =>
    intro found ns nl
    simp [backScan, backScanReads]
  | succ k ih =>
    intro found ns nl
    rw [backScan, backScanReads]
    cases hc : fBuf[k]? with
    | none =>
      have hk : fBuf.length ≤ k := List.getElem?_eq_none_iff.mp hc
      simp only [List.mem_cons, List.not_mem_nil, or_false, forall_eq]
      constructor
      · rintro ⟨r, hr⟩; cases hr
      · intro h; omega
    | some c =>
      have hk : k < fBuf.length := by
        by_contra hn
        rw [List.getElem?_eq_none (by omega)] at hc
        cases hc
      dsimp only
      by_cases h1 : c ≠ 0 ∨ found = false
      · rw [if_pos h1, if_pos h1]
        by_cases h2 : c ≠ 0
        · rw [if_pos h2, if_pos h2, ih true (some k) (nl + 1)]
          simp only [List.mem_cons, forall_eq_or_imp]
          constructor
          · intro h; exact ⟨by omega, h⟩
          · intro h; exact h.2
        · rw [if_neg h2, if_neg h2, ih found ns nl]
          simp only [List.mem_cons, forall_eq_or_imp]
          constructor
          · intro h; exact ⟨by omega, h⟩
          · intro h; exact h.2
      · rw [if_neg h1, if_neg h1]
        simp only [List.mem_cons, List.not_mem_nil, or_false, forall_eq]
        constructor
        · intro _; omega
        · intro _; exact ⟨_, rfl⟩

theorem backScanReads_collect (fBuf : Buffer) (q : Nat) :
    ∀ (d : Nat) (found : Bool),
      (∀ t, q < t → t < q + 1 + d → fBuf.getD t 0 ≠ 0) →
      (d = 0 → found = true) → fBuf.getD q 0 = 0 → q < fBuf.length →
      (∀ x ∈ backScanReads fBuf (q + 1 + d) found, (q : Int) ≤ x ∧ x ≤ (q : Int) + d) ∧
        (backScanReads fBuf (q + 1 + d) found).getLast? = some (q : Int) := by
  intro d
  induction d with
  | zero =>
    intro found _ h0 hq hlen
    rw [h0 rfl, Nat.add_zero, backScanReads, getElem?_of_getD_eq hlen hq]
    simp
  | succ d ih =>
    intro found hnz _ hq hlen
    have e : q + 1 + (d + 1) = (q + 1 + d) + 1 := by omega
    obtain ⟨c, hc, hc0⟩ := getElem?_of_getD_ne (hnz (q + 1 + d) (by omega) (by omega))
    obtain ⟨h1, h2⟩ := ih true (fun t a b => hnz t a (by omega)) (fun _ => rfl) hq hlen
    rw [e, backScanReads, hc]
    simp only [ne_eq, hc0, not_false_eq_true, true_or, if_true]
    constructor
    · intro x hx
      rw [List.mem_cons] at hx
      rcases hx with rfl | hx
      · push_cast; omega
      · have := h1 x hx
        push_cast; omega
    · rw [getLast?_cons_of_ne_nil _ (backScanReads_ne_nil _ _ _)]
      exact h2

theorem backScanReads_skip (fBuf : Buffer) (p : Nat) :
    ∀ (d : Nat), p + 1 + d ≤ fBuf.length →
      (∀ t, p < t → t < p + 1 + d → fBuf.getD t 0 = 0) →
      (∀ x ∈ backScanReads fBuf (p + 1 + d) false,
        x ∈ backScanReads fBuf (p + 1) false ∨ ((p : Int) < x ∧ x ≤ (p : Int) + d)) ∧
      (backScanReads fBuf (p + 1 + d) false).getLast? =
        (backScanReads fBuf (p + 1) false).getLast? := by
  intro d
  induction d with
  | zero => intro _ _; exact ⟨fun x hx => Or.inl hx, rfl⟩
  | succ d ih =>
    intro hlen hz
    have e : p + 1 + (d + 1) = (p + 1 + d) + 1 := by omega
    obtain ⟨h1, h2⟩ := ih (by omega) (fun t a b => hz t a (by omega))
    rw [e, backScanReads,
      getElem?_of_getD_eq (by omega) (hz (p + 1 + d) (by omega) (by omega))]
    simp only [ne_eq, not_true_eq_false, or_true, if_true, if_false]
    constructor
    · intro x hx
      rw [List.mem_cons] at hx
      rcases hx with rfl | hx
      · right; push_cast; omega
      · rcases h1 x hx with h | h
        · exact Or.inl h
        · right; omega
    · rw [getLast?_cons_of_ne_nil _ (backScanReads_ne_nil _ _ _)]
      exact h2

theorem mem_amtaOffsets {fBuf : Buffer} {m : Nat} (h : m ∈ amtaOffsets fBuf) :
    m % 4 = 0 ∧ m + 4 < fBuf.length ∧ isAMTA fBuf m = true := by
  unfold amtaOffsets at h
  rw [List.mem_filter, mem_scanOffsets] at h
  exact ⟨h.1.1, h.1.2, h.2⟩

theorem isAMTA_last_byte {fBuf : Buffer} {m : Nat} (h : isAMTA fBuf m = true) :
    fBuf.getD (m + 3) 0 ≠ 0 :=
  isTag_last_byte (by simp [isTag, h])

/-- C18. Let a null byte lie at an index `z` below every detected `AMTA` tag (so below
the first one), and let the detected `AMTA` tag at `m` be followed by a tag, the first
one at `j`. Then the backward loop started at `j - 1` reads only indices between `0`
and `j - 1`, all inside the buffer, its last read is a null byte at an index `q >= z`,
and the recovery ends normally with a name of at least one byte. -/
theorem backward_scan_in_bounds (fBuf : Buffer) (z m0 m j : Nat)
    (hm0 : ∀ t ∈ amtaOffsets fBuf, m0 ≤ t) (hz : z < m0) (hzz : fBuf.getD z 0 = 0)
    (hm : m ∈ amtaOffsets fBuf)
    (hj : j % 4 = 0) (hmj : m + 4 ≤ j) (hjb : j + 4 < fBuf.length)
    (htag : isTag fBuf j = true)
    (hfirst : ∀ t, t % 4 = 0 → m + 4 ≤ t → t < j → isTag fBuf t = false) :
    ∃ (q : Nat) (name : Name),
      recoverName fBuf m = .ok name ∧ 1 ≤ name.length ∧
      z ≤ q ∧ q < j ∧ fBuf[q]? = some 0 ∧
      (backScanReads fBuf j false).getLast? = some (q : Int) ∧
      ∀ x ∈ backScanReads fBuf j false,
        0 ≤ x ∧ (q : Int) ≤ x ∧ x ≤ (j : Int) - 1 ∧ x < (fBuf.length : Int) := by
  obtain ⟨hm4, _, hamta⟩ := mem_amtaOffsets hm
  have hzm : z < m := lt_of_lt_of_le hz (hm0 m hm)
  -- the last non-null byte before `j`
  let P : Nat → Prop := fun t => fBuf.getD t 0 ≠ 0
  have hP3 : P (m + 3) := isAMTA_last_byte hamta
  have hp0 : P (Nat.findGreatest P (j - 1)) :=
    Nat.findGreatest_spec (P := P) (by omega : m + 3 ≤ j - 1) hP3
  have hple : Nat.findGreatest P (j - 1) ≤ j - 1 := Nat.findGreatest_le (j - 1)
  have hpge : m + 3 ≤ Nat.findGreatest P (j - 1) :=
    Nat.le_findGreatest (by omega) hP3
  have hpz : ∀ t, Nat.findGreatest P (j - 1) < t → t < j → fBuf.getD t 0 = 0 := by
    intro t h1 h2
    by_contra hne
    exact Nat.findGreatest_is_greatest (P := P) h1 (by omega) hne
  generalize Nat.findGreatest P (j - 1) = p at hp0 hple hpge hpz
  -- the closest null byte below it
  let Q : Nat → Prop := fun t => fBuf.getD t 0 = 0
  have hq0 : Q (Nat.findGreatest Q (p - 1)) :=
    Nat.findGreatest_spec (P := Q) (by omega : z ≤ p - 1) hzz
  have hqle : Nat.findGreatest Q (p - 1) ≤ p - 1 := Nat.findGreatest_le (p - 1)
  have hqge : z ≤ Nat.findGreatest Q (p - 1) := Nat.le_findGreatest (by omega) hzz
  have hrun : ∀ t, Nat.findGreatest Q (p - 1) < t → t ≤ p → fBuf.getD t 0 ≠ 0 := by
    intro t h1 h2
    rcases Nat.eq_or_lt_of_le h2 with h | h
    · rw [h]; exact hp0
    · exact Nat.findGreatest_is_greatest (P := Q) h1 (by omega)
  generalize Nat.findGreatest Q (p - 1) = q at hq0 hqle hqge hrun
  have hqp : q < p := by omega
  have hname := recoverName_eq fBuf m j p q hm4 hj hmj hjb htag hfirst (by omega) hpz hqp
    hq0 hrun
  have hlen : ((fBuf.drop (q + 1)).take (p - q)).length = p - q := by
    rw [List.length_take, List.length_drop]
    omega
  obtain ⟨hs1, hs2⟩ := backScanReads_skip fBuf p (j - (p + 1)) (by omega)
    (fun t a b => hpz t a (by omega))
  obtain ⟨hc1, hc2⟩ := backScanReads_collect fBuf q (p - q) false
    (fun t a b => hrun t a (by omega)) (fun h => by omega) hq0 (by omega)
  have e1 : p + 1 + (j - (p + 1)) = j := by omega
  have e2 : q + 1 + (p - q) = p + 1 := by omega
  rw [e1] at hs1 hs2
  rw [e2] at hc1 hc2
  refine ⟨q, _, hname, by omega, hqge, by omega, getElem?_of_getD_eq (by omega) hq0,
    by rw [hs2, hc2], ?_⟩
  intro x hx
  rcases hs1 x hx with h | h
  · have := hc1 x h
    omega
  · omega

/-- C18 at `nullInFront` for its only `AMTA` tag, at `4`: a null byte lies at `3`, the
next tag is at `12`, no null byte lies in between, and the backward loop reads the
indices `11` down to `3`. -/
theorem backward_scan_in_bounds_witness :
    backScanReads nullInFront 12 false = [11, 10, 9, 8, 7, 6, 5, 4, 3] ∧
    ∃ (q : Nat) (name : Name),
      recoverName nullInFront 4 = .ok name ∧ 1 ≤ name.length ∧
      3 ≤ q ∧ q < 12 ∧ nullInFront[q]? = some 0 ∧
      (backScanReads nullInFront 12 false).getLast? = some (q : Int) ∧
      ∀ x ∈ backScanReads nullInFront 12 false,
        0 ≤ x ∧ (q : Int) ≤ x ∧ x ≤ (12 : Int) - 1 ∧ x < (nullInFront.length : Int) :=
  ⟨by decide,
    backward_scan_in_bounds nullInFront 3 4 4 12
      (by intro t ht
          have e : amtaOffsets nullInFront = [4] := by decide
          rw [e, List.mem_singleton] at ht
          omega)
      (by decide) (by decide) (by decide) (by decide) (by decide) (by decide) (by decide)
      (by intro t h1 h2 h3
          obtain rfl : t = 8 := by omega
          decide)⟩

/-! ### The path of a segment when files may not be overwritten -/

theorem pathProbe_eq (fileExists : Name → Bool) (pre : Name) :
    ∀ (fuel c n : Nat), c ≤ n → n < c + fuel →
      fileExists (pre ++ to_string n ++ bwavExt) = false →
      (∀ k, c ≤ k → k < n → fileExists (pre ++ to_string k ++ bwavExt) = true) →
      pathProbe fileExists pre fuel c = .ok n := by
  intro fuel
  induction fuel with
  | zero => intro c n h1 h2 _ _; omega
  | succ fuel ih =>
    intro c n h1 h2 hfree hbusy
    rw [pathProbe]
    rcases Nat.eq_or_lt_of_le h1 with e | e
    · subst e
      rw [hfree]
      simp
    · rw [if_pos (hbusy c le_rfl e)]
      exact ih (c + 1) n (by omega) (by omega) hfree (fun k a b => hbusy k (by omega) b)

theorem take_stem (dir name : Name) :
    (dir ++ (name ++ bwavExt)).take ((dir ++ (name ++ bwavExt)).length - 5) = dir ++ name := by
  have e : (dir ++ (name ++ bwavExt)).length - 5 = (dir ++ name).length := by
    simp only [List.length_append, bwavExt, List.length_cons, List.length_nil]
    omega
  rw [e, ← List.append_assoc, List.take_left]

/-- C15. With the existence of paths given by `fileExists`: when overwriting is enabled,
or the target path `stem.bwav` (`stem` being `dir ++ name`) does not exist, the path
written to is `stem.bwav` itself; when overwriting is disabled and `stem.bwav` exists,
it is `stem-n.bwav` for the smallest positive `n` for which that path does not exist
(the probing loop reaches it after `n` tests). -/
theorem output_path_choice (overwrite : Bool) (fileExists : Name → Bool) (dir name : Name) :
    (overwrite = true ∨ fileExists (dir ++ name ++ bwavExt) = false →
      ∀ fuel, outputPath overwrite fileExists dir name fuel = .ok (dir ++ name ++ bwavExt)) ∧
    (overwrite = false → fileExists (dir ++ name ++ bwavExt) = true →
      ∀ n, 1 ≤ n →
        fileExists (dir ++ name ++ [45] ++ to_string n ++ bwavExt) = false →
        (∀ k, 1 ≤ k → k < n →
          fileExists (dir ++ name ++ [45] ++ to_string k ++ bwavExt) = true) →
        ∀ fuel, n ≤ fuel →
          outputPath overwrite fileExists dir name fuel =
            .ok (dir ++ name ++ [45] ++ to_string n ++ bwavExt)) := by
  constructor
  · intro h fuel
    unfold outputPath
    dsimp only
    rw [if_neg]
    · rw [List.append_assoc]
    · rintro ⟨h1, h2⟩
      rw [← List.append_assoc] at h2
      rcases h with h | h
      · rw [h] at h1; cases h1
      · rw [h] at h2; cases h2
  · intro ho he n hn hfree hbusy fuel hfuel
    unfold outputPath
    dsimp only
    rw [if_pos ⟨ho, by rw [← List.append_assoc]; exact he⟩, take_stem,
      pathProbe_eq fileExists (dir ++ name ++ [45]) fuel 1 n hn (by omega) hfree hbusy]

/-- C15 at a file system in which `clap.bwav` is the only existing path: without
overwriting, the segment `clap` is written to `clap-1.bwav`. -/
theorem output_path_choice_witness :
    outputPath false (fun p => p == bytesOf "clap.bwav") [] (bytesOf "clap") 1 =
      .ok (bytesOf "clap-1.bwav") :=
  (output_path_choice false (fun p => p == bytesOf "clap.bwav") [] (bytesOf "clap")).2
    rfl (by decide) 1 (by decide) (by decide) (by intro k h1 h2; omega) 1 (by decide)

/-- When every probed path exists the loop of lines 201-203 does not end: no amount of
fuel gives a result. -/
theorem pathProbe_all_exist (fileExists : Name → Bool) (pre : Name)
    (hall : ∀ k, fileExists (pre ++ to_string k ++ bwavExt) = true) :
    ∀ (fuel c : Nat), pathProbe fileExists pre fuel c = .error .outOfFuel := by
  intro fuel
  induction fuel with
  | zero => intro c; rfl
  | succ fuel ih =>
    intro c
    rw [pathProbe, if_pos (hall c)]
    exact ih (c + 1)

/-! ### Runs that stop before the last slice -/

/-- The write loop completes exactly when the loop as far as it gets ends without an
error, and the segments are then the same. -/
theorem writeLoop_ok_iff_written {names : List Name} {offs : List Nat} {size : Nat} :
    ∀ (n i : Nat) (segs : List Segment),
      writeLoop names offs size n i = .ok segs ↔
        writeLoopWritten names offs size n i = (segs, none) := by
  intro n
  induction n with
  | zero =>
    intro i segs
    simp only [writeLoop, writeLoopWritten]
    constructor
    · intro h; cases h; rfl
    · intro h; cases h; rfl
  | succ n ih =>
    intro i segs
    simp only [writeLoop, writeLoopWritten]
    cases hs : segmentAt names offs size i with
    | error e =>
      dsimp only
      constructor
      · intro h; cases h
      · intro h; cases h
    | ok seg =>
      dsimp only
      cases hw : writeLoop names offs size n (i + 1) with
      | error e =>
        dsimp only
        constructor
        · intro h; cases h
        · intro h
          have h1 := congrArg Prod.fst h
          have h2 := congrArg Prod.snd h
          simp only at h1 h2
          cases segs with
          | nil => cases h1
          | cons s rest =>
            have h3 : (writeLoopWritten names offs size n (i + 1)).1 = rest :=
              (List.cons.inj h1).2
            have h4 : writeLoopWritten names offs size n (i + 1) = (rest, none) :=
              Prod.ext h3 h2
            rw [(ih (i + 1) rest).mpr h4] at hw
            cases hw
      | ok rest =>
        dsimp only
        rw [(ih (i + 1) rest).mp hw]
        constructor
        · intro h; cases h; rfl
        · intro h
          have h1 := congrArg Prod.fst h
          simp only at h1
          rw [← h1]

/-- A run completes exactly when it gets to its end without an error. -/
theorem processBuffer_ok_iff_written (fBuf : Buffer) (segs : List Segment) :
    processBuffer fBuf = .ok segs ↔ writtenSegments fBuf = (segs, none) := by
  unfold processBuffer writtenSegments
  cases hs : scan fBuf with
  | error e =>
    dsimp only
    constructor
    · intro h; cases h
    · intro h; cases h
  | ok st =>
    obtain ⟨names, offs⟩ := st
    dsimp only
    cases hp : padNames names offs.length with
    | error e =>
      dsimp only
      constructor
      · intro h; cases h
      · intro h; cases h
    | ok padded =>
      dsimp only
      exact writeLoop_ok_iff_written _ _ _

/-- After a scan with `A` names and `S` offsets the run completes exactly when at most
one name is missing, `S <= A + 1`. -/
theorem processBuffer_ok_iff {fBuf : Buffer} {names : List Name} {offs : List Nat}
    (hscan : scan fBuf = .ok (names, offs)) :
    (∃ segs, processBuffer fBuf = .ok segs) ↔ offs.length ≤ names.length + 1 := by
  unfold processBuffer
  rw [hscan]
  dsimp only
  rw [padNames_eq]
  dsimp only
  constructor
  · rintro ⟨segs, h⟩
    obtain ⟨_, hidx⟩ := writeLoop_ok _ _ _ h
    by_contra hc
    obtain ⟨seg, _, h2⟩ := hidx (offs.length - 1) (by omega)
    have h3 := (segmentAt_ok h2).2
    rw [Nat.zero_add, List.getElem?_eq_none (by simp; omega)] at h3
    cases h3
  · intro h
    exact writeLoop_total (by simp; omega) offs.length 0 (by omega)

/-- C1, the code at the buffer `twoUnnamed`: the scan records the offsets `0` and `8`, so
the pieces `(0, 8)` and `(8, 8)` should be written, and the write loop computes them;
but the padding leaves one name missing, the run writes the segment `(0, 8)` only and
is stopped by the read of `audioNames[1]` beyond the end of the vector. The last piece
written ends at `8`, not at `barsSize = 16`. -/
theorem partition_stops_short :
    scan twoUnnamed = .ok ([], [0, 8]) ∧ twoUnnamed.length = 16 ∧
    segmentRange [0, 8] twoUnnamed.length 0 = .ok (0, 8) ∧
    segmentRange [0, 8] twoUnnamed.length 1 = .ok (8, 8) ∧
    writtenSegments twoUnnamed = ([⟨bytesOf "extra_1", 0, 8⟩], some .nameIndex) ∧
    (0 : Int) + 8 ≠ twoUnnamed.length := by
  decide

end BarsToBwav
